import Mathlib

/-!
# Verification of the habit_hatchery analytics workers

Shallow embedding of the four analytics microservices
(`src/microservices/progress-tracker.py`, `streaks_service.py`,
`activity-analyzer.py`, `trend-analyzer.py`) together with proofs of the
spec's testable properties.

Modelling conventions, shared by the whole development:

* A calendar day (Python `datetime.date`) is represented by its proleptic
  Gregorian ordinal (`date.toordinal()`) as an `Int`.  Day arithmetic
  (`timedelta(days=1)`) becomes `+ 1`; `d1 < d2` on dates coincides with
  `<` on ordinals; `date.isoformat()` is injective on dates, so a
  dictionary keyed by isoformat strings is keyed here by ordinals.
  Ordinal 1 is 0001-01-01, a Monday, hence `weekday(d) = (d - 1) % 7`
  with Python `%` semantics (`Int.emod`).
* Numeric values (`float` in the source) are modelled as exact rationals
  `ℚ`; Python `round(x, 2)` is round-half-to-even at two decimals.
* A "dated item" of the activity/trend workers is read only through
  `parse_iso_date(item.get(date_field))`, an `Option date`; an item is
  therefore represented by that parse result, `Option Int` (`none` for a
  missing, non-string or unparsable date field).
* Python `dict` values keyed by strings are represented as association
  lists `List (key × value)` in insertion order, which is exactly the
  structure a CPython dict maintains.
-/

/-! ## Association-list dictionaries (shared helpers) -/

/-- `heatmap[key] += 1` on an association list when `key` is already
present: replace the value at the first occurrence of the key, leaving
everything else in place. -/
def incrIfPresent {α : Type} [DecidableEq α] : List (α × Nat) → α → List (α × Nat)
  | [], _ => []
  | p :: rest, k => if p.1 = k then (p.1, p.2 + 1) :: rest else p :: incrIfPresent rest k

/-- `buckets[key] = buckets.get(key, 0) + 1`: update the entry in place if
the key is present, otherwise append a fresh entry (CPython dicts keep
insertion order). -/
def dictIncr {α : Type} [DecidableEq α] (st : List (α × Nat)) (k : α) : List (α × Nat) :=
  if k ∈ st.map Prod.fst then incrIfPresent st k else st ++ [(k, 1)]

/-! ## Progress worker (`src/microservices/progress-tracker.py`) -/

/-- Round-half-to-even to an integer, the rounding mode of Python's
builtin `round`. -/
def roundHalfEven (q : ℚ) : ℤ :=
  let n := ⌊q⌋
  let f := q - n
  if f < 1 / 2 then n
  else if 1 / 2 < f then n + 1
  else if Even n then n else n + 1

/-- `round(percent, 2)`: round to two decimal places, half to even. -/
def roundTo2 (q : ℚ) : ℚ := (roundHalfEven (q * 100) : ℚ) / 100

/-- The dictionary returned by `compute_progress` (lines 24-55 of
`progress-tracker.py`). -/
structure ProgressResult where
  current : ℚ
  target : ℚ
  percent_complete : ℚ
  completed : Bool
  status : String
deriving DecidableEq

/-- `compute_progress(current, target)`: percent is
`current / target * 100` rounded to two decimals, with the explicit
`target == 0` rule; `completed = current >= target`; status is
`completed` / `not_started` / `in_progress` in that priority order. -/
def compute_progress (current target : ℚ) : ProgressResult :=
  let percent : ℚ :=
    if target = 0 then (if target ≤ current then 100 else 0)
    else current / target * 100
  let completed : Bool := decide (target ≤ current)
  let percent_rounded := roundTo2 percent
  let status : String :=
    if completed then "completed"
    else if current ≤ 0 then "not_started"
    else "in_progress"
  ⟨current, target, percent_rounded, completed, status⟩

theorem compute_progress_percent (c t : ℚ) :
    (compute_progress c t).percent_complete =
      roundTo2 (if t = 0 then (if t ≤ c then 100 else 0) else c / t * 100) := rfl

theorem compute_progress_status (c t : ℚ) :
    (compute_progress c t).status =
      (if t ≤ c then "completed" else if c ≤ 0 then "not_started" else "in_progress") := by
  show (if decide (t ≤ c) = true then "completed"
    else if c ≤ 0 then "not_started" else "in_progress") = _
  by_cases h : t ≤ c <;> simp [h]

/-- Rounding an integer changes nothing. -/
theorem roundHalfEven_intCast (n : ℤ) : roundHalfEven (n : ℚ) = n := by
  unfold roundHalfEven
  simp [Int.floor_intCast]

/-- Round-half-even never moves below the floor. -/
theorem roundHalfEven_nonneg {q : ℚ} (h : 0 ≤ q) : 0 ≤ roundHalfEven q := by
  unfold roundHalfEven
  have h0 : (0 : ℤ) ≤ ⌊q⌋ := by positivity
  dsimp only
  split
  · exact h0
  · split
    · omega
    · split <;> omega

/-- Round-half-even of a value at most an integer `n` stays at most `n`. -/
theorem roundHalfEven_le {q : ℚ} {n : ℤ} (h : q ≤ n) : roundHalfEven q ≤ n := by
  unfold roundHalfEven
  have hfl : ⌊q⌋ ≤ n := by
    have := Int.floor_le_floor h
    simpa using this
  have hfr : (⌊q⌋ : ℚ) ≤ q := Int.floor_le q
  dsimp only
  split
  · exact hfl
  · rename_i h1
    push_neg at h1
    have hlt : (⌊q⌋ : ℚ) < q := by
      rcases lt_or_eq_of_le hfr with h2 | h2
      · exact h2
      · exfalso
        rw [← h2] at h1
        norm_num at h1
    have : ⌊q⌋ < n := by
      by_contra hc
      push_neg at hc
      have h3 : (n : ℚ) ≤ ⌊q⌋ := by exact_mod_cast hc
      have : q < q := lt_of_le_of_lt (le_trans h h3) hlt
      exact lt_irrefl _ this
    split
    · omega
    · split <;> omega

/-- Round-half-even lands within half a unit of its argument. -/
theorem roundHalfEven_close (q : ℚ) : |(roundHalfEven q : ℚ) - q| ≤ 1 / 2 := by
  unfold roundHalfEven
  have hfl : (⌊q⌋ : ℚ) ≤ q := Int.floor_le q
  have hfu : q < ⌊q⌋ + 1 := Int.lt_floor_add_one q
  dsimp only
  split
  · rename_i h1
    rw [abs_le]
    constructor <;> linarith
  · rename_i h1
    push_neg at h1
    split
    · rename_i h3
      push_cast
      rw [abs_le]
      constructor <;> linarith
    · rename_i h3
      push_neg at h3
      split <;>
      · push_cast
        rw [abs_le]
        constructor <;> linarith

theorem roundTo2_intCast (n : ℤ) : roundTo2 ((n : ℚ)) = (n : ℚ) := by
  have h : ((n : ℚ) * 100) = (((n * 100 : ℤ)) : ℚ) := by push_cast; ring
  rw [roundTo2, h, roundHalfEven_intCast]
  push_cast
  field_simp

theorem roundTo2_hundred : roundTo2 (100 : ℚ) = 100 := by
  have := roundTo2_intCast 100
  norm_num at this
  exact this

theorem roundTo2_zero : roundTo2 (0 : ℚ) = 0 := by
  have := roundTo2_intCast 0
  norm_num at this
  exact this

/-- C1 (counterexample): at `current = 5`, `target = 2` — both
nonnegative, target nonzero — `compute_progress` reports
`percent_complete = 250`, outside `[0, 100]`. -/
theorem C1_counterexample :
    (0 : ℚ) ≤ 5 ∧ (0 : ℚ) ≤ 2 ∧ (2 : ℚ) ≠ 0 ∧
      (compute_progress 5 2).percent_complete = 250 ∧
      ¬ (compute_progress 5 2).percent_complete ≤ 100 := by
  have h : (compute_progress 5 2).percent_complete = 250 := by
    rw [compute_progress_percent]
    rw [if_neg (by norm_num : (2 : ℚ) ≠ 0)]
    have h1 : ((5 : ℚ) / 2 * 100) = ((250 : ℤ) : ℚ) := by norm_num
    rw [h1, roundTo2_intCast]
    norm_num
  refine ⟨by norm_num, by norm_num, by norm_num, h, ?_⟩
  rw [h]; norm_num

/-- C1 (amended): `percent_complete` is nonnegative whenever
`current ≥ 0` and `target ≥ 0`; it lies in `[0, 100]` when additionally
`current ≤ target`; and under the `target == 0` rule it is exactly 100
or 0. -/
theorem C1_theorem (c t : ℚ) :
    (0 ≤ c → 0 ≤ t → 0 ≤ (compute_progress c t).percent_complete) ∧
    (0 ≤ c → c ≤ t → (compute_progress c t).percent_complete ≤ 100) ∧
    (t = 0 → (compute_progress c t).percent_complete = 100 ∨
      (compute_progress c t).percent_complete = 0) := by
  rw [compute_progress_percent]
  refine ⟨?_, ?_, ?_⟩
  · intro hc ht
    split_ifs with h1 h2
    · rw [roundTo2_hundred]; norm_num
    · rw [roundTo2_zero]
    · have ht' : 0 < t := lt_of_le_of_ne ht (Ne.symm h1)
      have hq : 0 ≤ c / t * 100 := by positivity
      rw [roundTo2]
      have h3 := roundHalfEven_nonneg (q := c / t * 100 * 100) (by positivity)
      have h4 : (0 : ℚ) ≤ (roundHalfEven (c / t * 100 * 100) : ℚ) := by exact_mod_cast h3
      positivity
  · intro hc hct
    split_ifs with h1 h2
    · rw [roundTo2_hundred]
    · rw [roundTo2_zero]; norm_num
    · have ht' : 0 < t := by
        rcases lt_or_eq_of_le (le_trans hc hct) with h2 | h2
        · exact h2
        · exact absurd h2.symm h1
      have hq : c / t * 100 ≤ 100 := by
        have : c / t ≤ 1 := (div_le_one ht').2 hct
        linarith
      rw [roundTo2]
      have hle : c / t * 100 * 100 ≤ ((10000 : ℤ) : ℚ) := by push_cast; linarith
      have h3 := roundHalfEven_le hle
      have h4 : ((roundHalfEven (c / t * 100 * 100)) : ℚ) ≤ 10000 := by exact_mod_cast h3
      linarith
  · intro ht
    subst ht
    rw [if_pos rfl]
    split_ifs with h2
    · left; exact roundTo2_hundred
    · right; exact roundTo2_zero

/-- C1 witness: the amended bounds at `current = 1`, `target = 2`. -/
theorem C1_witness :
    0 ≤ (compute_progress 1 2).percent_complete ∧
      (compute_progress 1 2).percent_complete ≤ 100 :=
  ⟨(C1_theorem 1 2).1 (by norm_num) (by norm_num),
   (C1_theorem 1 2).2.1 (by norm_num) (by norm_num)⟩

/-- C2: for `target ≠ 0` the percent is `current / target * 100` rounded
to two decimals (an integer multiple of 1/100 within 1/200 of the exact
ratio, and exactly `roundTo2` of it); for `target == 0` it is 100 when
`current ≥ target` and 0 otherwise; the status classification follows
the completed / not_started / in_progress priority; and the spec's
scenario `current = 3, target = 0` yields percent 100 with status
"completed". -/
theorem C2_theorem :
    (∀ c t : ℚ,
      (t ≠ 0 → (compute_progress c t).percent_complete = roundTo2 (c / t * 100) ∧
        (∃ k : ℤ, (compute_progress c t).percent_complete = (k : ℚ) / 100) ∧
        |(compute_progress c t).percent_complete - c / t * 100| ≤ 1 / 200) ∧
      (t = 0 → (compute_progress c t).percent_complete =
        (if t ≤ c then (100 : ℚ) else 0)) ∧
      (compute_progress c t).status =
        (if t ≤ c then "completed" else if c ≤ 0 then "not_started" else "in_progress") ∧
      (compute_progress c t).completed = decide (t ≤ c)) ∧
    (compute_progress 3 0).percent_complete = 100 ∧
    (compute_progress 3 0).status = "completed" := by
  constructor
  · intro c t
    refine ⟨?_, ?_, compute_progress_status c t, rfl⟩
    · intro ht
      have hp : (compute_progress c t).percent_complete = roundTo2 (c / t * 100) := by
        rw [compute_progress_percent, if_neg ht]
      refine ⟨hp, ⟨roundHalfEven (c / t * 100 * 100), hp⟩, ?_⟩
      rw [hp, roundTo2]
      have hclose := roundHalfEven_close (c / t * 100 * 100)
      have hdiff : (roundHalfEven (c / t * 100 * 100) : ℚ) / 100 - c / t * 100 =
          ((roundHalfEven (c / t * 100 * 100) : ℚ) - c / t * 100 * 100) / 100 := by
        ring
      rw [hdiff, abs_div]
      have habs : |(100 : ℚ)| = 100 := by norm_num
      rw [habs, div_le_iff₀ (by norm_num : (0 : ℚ) < 100)]
      calc |(roundHalfEven (c / t * 100 * 100) : ℚ) - c / t * 100 * 100| ≤ 1 / 2 := hclose
      _ = 1 / 200 * 100 := by norm_num
    · intro ht
      subst ht
      rw [compute_progress_percent, if_pos rfl]
      split_ifs with h2
      · exact roundTo2_hundred
      · exact roundTo2_zero
  · constructor
    · rw [compute_progress_percent]
      rw [if_pos rfl, if_pos (by norm_num : (0 : ℚ) ≤ 3)]
      exact roundTo2_hundred
    · rw [compute_progress_status]
      rw [if_pos (by norm_num : (0 : ℚ) ≤ 3)]

/-- C2 witness: the characterization applied at `(3, 2)` (nonzero
target) and the zero-target scenario at `(3, 0)`. -/
theorem C2_witness :
    |(compute_progress 3 2).percent_complete - 3 / 2 * 100| ≤ 1 / 200 ∧
      (compute_progress 3 0).percent_complete = 100 :=
  ⟨((C2_theorem.1 3 2).1 (by norm_num)).2.2, C2_theorem.2.1⟩

/-! ## Streak worker (`src/microservices/streaks_service.py`)

`date.today()` is ambient state in the source; here `today` is an
explicit parameter.  The set `dates_set = set(dates)` is represented by
membership in the parsed-dates list (same membership relation).  The
`while` loops of `_count_backward_streak` / `_count_forward_streak`
terminate because they walk through distinct members of the finite set;
they are embedded with a fuel of `length + 1`, which the lemmas below
prove is never exhausted. -/

/-- Loop of `_count_backward_streak`: count consecutive days downward
from `curr` while they remain in the set. -/
def count_backward_aux (S : List Int) : Nat → Int → Nat
  | 0, _ => 0
  | fuel + 1, curr => if curr ∈ S then 1 + count_backward_aux S fuel (curr - 1) else 0

/-- `_count_backward_streak(dates_set, start_date)`. -/
def count_backward_streak (S : List Int) (start : Int) : Nat :=
  count_backward_aux S (S.length + 1) start

/-- Loop of `_count_forward_streak`: count days upward from `curr` while
`curr + 1 day` remains in the set. -/
def count_forward_aux (S : List Int) : Nat → Int → Nat
  | 0, _ => 0
  | fuel + 1, curr => if (curr + 1) ∈ S then 1 + count_forward_aux S fuel (curr + 1) else 0

/-- `_count_forward_streak(dates_set, start_date)` (initial length 1). -/
def count_forward_streak (S : List Int) (start : Int) : Nat :=
  1 + count_forward_aux S (S.length + 1) start

/-- Loop body of `calculate_longest_streak`: skip dates that are not
streak starts, otherwise take the max with the forward count. -/
def longestStep (dates : List Int) (longest : Nat) (d : Int) : Nat :=
  if (d - 1) ∈ dates then longest else max longest (count_forward_streak dates d)

/-- `calculate_longest_streak(dates)`; the Python `for` over the set is a
fold over the deduplicated list (the max is iteration-order
independent). -/
def calculate_longest_streak (dates : List Int) : Nat :=
  if dates = [] then 0 else dates.dedup.foldl (longestStep dates) 0

/-- `calculate_current_streak(dates)` relative to `today`. -/
def calculate_current_streak (today : Int) (dates : List Int) : Nat :=
  if dates = [] then 0
  else if today ∈ dates then 1 + count_backward_streak dates (today - 1)
  else 0

/-- A descending run of `m` distinct days inside `S` bounds `m` by the
length of `S`. -/
theorem run_le_length_desc (S : List Int) (t : Int) (m : Nat)
    (h : ∀ i : Nat, i < m → (t - i) ∈ S) : m ≤ S.length := by
  have hinj : Set.InjOn (fun i : ℕ => t - (i : ℤ)) (Finset.range m) := by
    intro i _ j _ hij
    simp only at hij
    omega
  have hmap : ∀ i ∈ Finset.range m, (fun i : ℕ => t - (i : ℤ)) i ∈ S.toFinset := by
    intro i hi
    simp only [List.mem_toFinset]
    exact h i (Finset.mem_range.1 hi)
  have hcard := Finset.card_le_card_of_injOn _ hmap hinj
  simpa using le_trans hcard S.toFinset_card_le

/-- An ascending run of `m` distinct days inside `S` bounds `m` by the
length of `S`. -/
theorem run_le_length_asc (S : List Int) (t : Int) (m : Nat)
    (h : ∀ i : Nat, i < m → (t + i) ∈ S) : m ≤ S.length := by
  apply run_le_length_desc S (t + m - 1) m
  intro i hi
  have h2 := h (m - 1 - i) (by omega)
  have hc : t + ((m - 1 - i : ℕ) : ℤ) = t + (m : ℤ) - 1 - (i : ℤ) := by omega
  rw [hc] at h2
  exact h2

/-- What the backward loop computes: every counted day is in the set, and
if the fuel did not run out the day just past the count is not. -/
theorem count_backward_aux_spec (S : List Int) :
    ∀ (fuel : Nat) (curr : Int),
      (∀ i : Nat, i < count_backward_aux S fuel curr → (curr - i) ∈ S) ∧
      (count_backward_aux S fuel curr < fuel →
        (curr - (count_backward_aux S fuel curr : ℤ)) ∉ S) ∧
      count_backward_aux S fuel curr ≤ fuel := by
  intro fuel
  induction fuel with
  | zero =>
    intro curr
    refine ⟨?_, ?_, ?_⟩
    · intro i hi; simp [count_backward_aux] at hi
    · intro h; simp [count_backward_aux] at h
    · simp [count_backward_aux]
  | succ fuel ih =>
    intro curr
    have heq : count_backward_aux S (fuel + 1) curr =
        if curr ∈ S then 1 + count_backward_aux S fuel (curr - 1) else 0 := by
      simp only [count_backward_aux]
    by_cases hc : curr ∈ S
    · have hk : count_backward_aux S (fuel + 1) curr =
          1 + count_backward_aux S fuel (curr - 1) := by
        rw [heq, if_pos hc]
      obtain ⟨ih1, ih2, ih3⟩ := ih (curr - 1)
      refine ⟨?_, ?_, ?_⟩
      · intro i hi
        rw [hk] at hi
        match i with
        | 0 => simpa using hc
        | i' + 1 =>
          have h2 := ih1 i' (by omega)
          have hcast : curr - ((i' + 1 : ℕ) : ℤ) = curr - 1 - (i' : ℤ) := by
            push_cast; ring
          rw [hcast]
          exact h2
      · intro hlt
        rw [hk] at hlt ⊢
        have h2 := ih2 (by omega)
        have hcast : curr - ((1 + count_backward_aux S fuel (curr - 1) : ℕ) : ℤ) =
            curr - 1 - (count_backward_aux S fuel (curr - 1) : ℤ) := by
          push_cast; ring
        rw [hcast]
        exact h2
      · rw [hk]; omega
    · have hk : count_backward_aux S (fuel + 1) curr = 0 := by
        rw [heq, if_neg hc]
      refine ⟨?_, ?_, ?_⟩
      · intro i hi; rw [hk] at hi; omega
      · intro _; rw [hk]; simpa using hc
      · rw [hk]; omega

/-- With fuel `length + 1` the backward loop never exhausts its fuel:
the count is exact. -/
theorem count_backward_streak_spec (S : List Int) (curr : Int) :
    (∀ i : Nat, i < count_backward_streak S curr → (curr - i) ∈ S) ∧
      (curr - (count_backward_streak S curr : ℤ)) ∉ S := by
  obtain ⟨h1, h2, h3⟩ := count_backward_aux_spec S (S.length + 1) curr
  have hlt : count_backward_aux S (S.length + 1) curr < S.length + 1 := by
    rcases lt_or_eq_of_le h3 with h | h
    · exact h
    · exfalso
      have := run_le_length_desc S curr (S.length + 1) (by intro i hi; exact h1 i (by omega))
      omega
  exact ⟨h1, h2 hlt⟩

/-- Lower bound for the forward loop: a run of `m` consecutive successors
inside the set forces a count of at least `m`, given enough fuel. -/
theorem count_forward_aux_ge (S : List Int) :
    ∀ (m fuel : Nat) (curr : Int), m ≤ fuel →
      (∀ i : Nat, i < m → (curr + 1 + i) ∈ S) → m ≤ count_forward_aux S fuel curr := by
  intro m
  induction m with
  | zero => intro fuel curr _ _; omega
  | succ m ih =>
    intro fuel curr hm h
    match fuel with
    | fuel' + 1 =>
      have hc : (curr + 1) ∈ S := by simpa using h 0 (by omega)
      have hk : count_forward_aux S (fuel' + 1) curr =
          1 + count_forward_aux S fuel' (curr + 1) := by
        have heq : count_forward_aux S (fuel' + 1) curr =
            if (curr + 1) ∈ S then 1 + count_forward_aux S fuel' (curr + 1) else 0 := by
          simp only [count_forward_aux]
        rw [heq, if_pos hc]
      rw [hk]
      have := ih fuel' (curr + 1) (by omega) (by
        intro i hi
        have h2 := h (i + 1) (by omega)
        have hcast : curr + 1 + ((i + 1 : ℕ) : ℤ) = curr + 1 + 1 + (i : ℤ) := by
          push_cast; ring
        rw [hcast] at h2
        exact h2)
      omega

/-- `_count_forward_streak` measures at least any consecutive run that
starts at its start date. -/
theorem count_forward_streak_ge (S : List Int) (start : Int) (n : Nat)
    (h : ∀ i : Nat, i < n → (start + i) ∈ S) : n ≤ count_forward_streak S start := by
  match n with
  | 0 => omega
  | n' + 1 =>
    have hrun : ∀ i : Nat, i < n' → (start + 1 + i) ∈ S := by
      intro i hi
      have h2 := h (i + 1) (by omega)
      have hcast : start + ((i + 1 : ℕ) : ℤ) = start + 1 + (i : ℤ) := by push_cast; ring
      rw [hcast] at h2
      exact h2
    have hbound : n' + 1 ≤ S.length := run_le_length_asc S start (n' + 1) h
    have := count_forward_aux_ge S n' (S.length + 1) start (by omega) hrun
    unfold count_forward_streak
    omega

theorem foldl_longestStep_acc_le (dates : List Int) :
    ∀ (l : List Int) (acc : Nat), acc ≤ l.foldl (longestStep dates) acc := by
  intro l
  induction l with
  | nil => intro acc; simp
  | cons a l ih =>
    intro acc
    have h1 : acc ≤ longestStep dates acc a := by
      unfold longestStep
      split
      · omega
      · omega
    calc acc ≤ longestStep dates acc a := h1
    _ ≤ l.foldl (longestStep dates) (longestStep dates acc a) := ih _
    _ = (a :: l).foldl (longestStep dates) acc := rfl

theorem foldl_longestStep_ge (dates : List Int) :
    ∀ (l : List Int) (acc : Nat) (d : Int), d ∈ l → (d - 1) ∉ dates →
      count_forward_streak dates d ≤ l.foldl (longestStep dates) acc := by
  intro l
  induction l with
  | nil => intro acc d hd; exact absurd hd (List.not_mem_nil d)
  | cons a l ih =>
    intro acc d hd hgap
    rcases List.mem_cons.1 hd with h | h
    · subst h
      have h1 : count_forward_streak dates d ≤ longestStep dates acc d := by
        unfold longestStep
        rw [if_neg hgap]
        omega
      calc count_forward_streak dates d ≤ longestStep dates acc d := h1
      _ ≤ l.foldl (longestStep dates) (longestStep dates acc d) :=
        foldl_longestStep_acc_le dates l _
    · exact ih _ d h hgap

/-- Any consecutive run in the date set that begins at a true streak
start is a lower bound for `calculate_longest_streak`. -/
theorem longest_ge_run (dates : List Int) (s : Int) (n : Nat)
    (hn : 1 ≤ n) (hgap : (s - 1) ∉ dates)
    (hrun : ∀ i : Nat, i < n → (s + i) ∈ dates) :
    n ≤ calculate_longest_streak dates := by
  have hs : s ∈ dates := by simpa using hrun 0 (by omega)
  have hne : dates ≠ [] := by
    intro h; rw [h] at hs; exact List.not_mem_nil s hs
  unfold calculate_longest_streak
  rw [if_neg hne]
  have hd : s ∈ dates.dedup := List.mem_dedup.2 hs
  calc n ≤ count_forward_streak dates s := count_forward_streak_ge dates s n hrun
  _ ≤ dates.dedup.foldl (longestStep dates) 0 := foldl_longestStep_ge dates _ 0 s hd hgap

/-- The run counted by the current streak is bounded by the longest
streak of any superset that still misses the day below the run. -/
theorem current_le_longest_gen (dates L : List Int) (today : Int)
    (htd : today ∈ dates)
    (hsub : ∀ x : Int, x ∈ dates → x ∈ L)
    (hgap : (today - 1 - (count_backward_streak dates (today - 1) : ℤ)) ∉ L) :
    calculate_current_streak today dates ≤ calculate_longest_streak L := by
  have hne : dates ≠ [] := by
    intro h; rw [h] at htd; exact List.not_mem_nil today htd
  set k := count_backward_streak dates (today - 1) with hk
  have hcur : calculate_current_streak today dates = 1 + k := by
    unfold calculate_current_streak
    rw [if_neg hne, if_pos htd]
  rw [hcur]
  obtain ⟨hb1, _⟩ := count_backward_streak_spec dates (today - 1)
  have hmain : k + 1 ≤ calculate_longest_streak L := by
    apply longest_ge_run L (today - k) (k + 1) (by omega)
    · have hc : today - (k : ℤ) - 1 = today - 1 - (k : ℤ) := by ring
      rw [hc]
      exact hgap
    · intro i hi
      by_cases hik : i = k
      · rw [hik]
        have hc : today - (k : ℤ) + (k : ℤ) = today := by ring
        rw [hc]
        exact hsub today htd
      · have hj : k - 1 - i < k := by omega
        have h2 := hb1 (k - 1 - i) hj
        have hc : today - 1 - ((k - 1 - i : ℕ) : ℤ) = today - (k : ℤ) + (i : ℤ) := by omega
        rw [hc] at h2
        exact hsub _ h2
  omega

/-- The current streak never exceeds the longest streak of the same date
set (the run it counts is itself a streak). -/
theorem current_le_longest (dates : List Int) (today : Int) :
    calculate_current_streak today dates ≤ calculate_longest_streak dates := by
  by_cases hne : dates = []
  · subst hne
    simp [calculate_current_streak]
  · by_cases htd : today ∈ dates
    · apply current_le_longest_gen dates dates today htd (fun x hx => hx)
      exact (count_backward_streak_spec dates (today - 1)).2
    · unfold calculate_current_streak
      rw [if_neg hne, if_neg htd]
      omega

/-- C7 (counterexample): the claim says
`longest_streak(dates) ≥ current_streak(dates)` "need not hold in
general"; in fact no date set and no choice of today violates the
inequality, so its negation — the existence of a violating input — is
refuted. -/
theorem C7_counterexample :
    ¬ ∃ (dates : List Int) (today : Int),
        calculate_longest_streak dates < calculate_current_streak today dates := by
  rintro ⟨dates, today, h⟩
  exact absurd (current_le_longest dates today) (by omega)

/-- C7 (amended): for every date set and every today,
`current_streak(dates) ≤ longest_streak(dates ∪ {today})`, and moreover
`current_streak(dates) ≤ longest_streak(dates)` always holds (the claim
said the latter was not guaranteed). -/
theorem C7_theorem :
    (∀ (dates : List Int) (today : Int),
      calculate_current_streak today dates ≤ calculate_longest_streak (today :: dates)) ∧
    (∀ (dates : List Int) (today : Int),
      calculate_current_streak today dates ≤ calculate_longest_streak dates) := by
  constructor
  · intro dates today
    by_cases hne : dates = []
    · subst hne
      simp [calculate_current_streak]
    · by_cases htd : today ∈ dates
      · apply current_le_longest_gen dates (today :: dates) today htd
        · intro x hx; exact List.mem_cons_of_mem today hx
        · intro hmem
          rcases List.mem_cons.1 hmem with h | h
          · omega
          · exact absurd h (count_backward_streak_spec dates (today - 1)).2
      · unfold calculate_current_streak
        rw [if_neg hne, if_neg htd]
        omega
  · intro dates today
    exact current_le_longest dates today

/-- C6: the current streak is 0 when today is absent from the parsed
date set, and otherwise counts today plus the consecutive prior days in
the set and stops at the first gap; the spec's scenario
2024-01-01..2024-01-03 (ordinals 738886..738888) with today =
2024-01-03 gives current 3 and longest 3. -/
theorem C6_theorem :
    (∀ (today : Int) (dates : List Int), today ∉ dates →
      calculate_current_streak today dates = 0) ∧
    (∀ (today : Int) (dates : List Int), today ∈ dates →
      1 ≤ calculate_current_streak today dates ∧
      (∀ i : Nat, i < calculate_current_streak today dates → (today - i) ∈ dates) ∧
      (today - (calculate_current_streak today dates : ℤ)) ∉ dates) ∧
    calculate_current_streak 738888 [738886, 738887, 738888] = 3 ∧
    calculate_longest_streak [738886, 738887, 738888] = 3 := by
  refine ⟨?_, ?_, by decide, by decide⟩
  · intro today dates htd
    unfold calculate_current_streak
    by_cases h : dates = []
    · rw [if_pos h]
    · rw [if_neg h, if_neg htd]
  · intro today dates htd
    have hne : dates ≠ [] := by
      intro h; rw [h] at htd; exact List.not_mem_nil today htd
    have hcur : calculate_current_streak today dates =
        1 + count_backward_streak dates (today - 1) := by
      unfold calculate_current_streak
      rw [if_neg hne, if_pos htd]
    obtain ⟨hb1, hb2⟩ := count_backward_streak_spec dates (today - 1)
    refine ⟨by omega, ?_, ?_⟩
    · intro i hi
      rw [hcur] at hi
      match i with
      | 0 => simpa using htd
      | i' + 1 =>
        have h2 := hb1 i' (by omega)
        have hc : today - ((i' + 1 : ℕ) : ℤ) = today - 1 - (i' : ℤ) := by push_cast; ring
        rw [hc]
        exact h2
    · rw [hcur]
      have hc : today - ((1 + count_backward_streak dates (today - 1) : ℕ) : ℤ) =
          today - 1 - (count_backward_streak dates (today - 1) : ℤ) := by push_cast; ring
      rw [hc]
      exact hb2

/-- C6 witness: the characterization applied at concrete inputs. -/
theorem C6_witness :
    calculate_current_streak 5 [1] = 0 ∧ 1 ≤ calculate_current_streak 3 [3] :=
  ⟨C6_theorem.1 5 [1] (by decide), (C6_theorem.2.1 3 [3] (by decide)).1⟩

/-- One entry of the `dates` array of a streak request: either a
non-string JSON value (dropped by `_extract_date_strings`) or a string
together with its `parse_date_string` outcome (`none` when the string
matches none of the accepted formats). -/
inductive StreakEntry where
  | nonString
  | strVal (parsed : Option Int)
deriving DecidableEq

/-- Shape of a streak-worker payload as `process_request` inspects it:
not a dict at all, a dict whose `dates` key is absent, a dict whose
`dates` value is not a list, or a `dates` list of entries. -/
inductive StreakPayload where
  | notDict
  | missingDates
  | notList
  | datesList (entries : List StreakEntry)
deriving DecidableEq

/-- The `result` object of a successful streak reply. -/
structure StreakResult where
  current_streak : Nat
  longest_streak : Nat
deriving DecidableEq

/-- `_extract_date_strings`: keep only the string entries (as their
parse outcomes). -/
def extract_date_strings (entries : List StreakEntry) : List (Option Int) :=
  entries.filterMap (fun e => match e with
    | StreakEntry.strVal p => some p
    | StreakEntry.nonString => none)

/-- `_parse_dates`: keep the successfully parsed dates. -/
def parse_dates (ds : List (Option Int)) : List Int := ds.filterMap id

/-- `process_request(payload)`: error for a non-dict payload, a missing
`dates` key or a non-list value, error when no entry parses, else the
two streak numbers.  `Except.error` models `{ok: false, error}` and
`Except.ok` models `{ok: true, result}`. -/
def process_request (today : Int) (p : StreakPayload) : Except String StreakResult :=
  match p with
  | StreakPayload.datesList entries =>
    let parsed := parse_dates (extract_date_strings entries)
    if parsed = [] then Except.error "No valid dates provided."
    else Except.ok ⟨calculate_current_streak today parsed, calculate_longest_streak parsed⟩
  | _ => Except.error "Request must contain a \x27dates\x27 array."

theorem mem_parse_extract (entries : List StreakEntry) (d : Int) :
    d ∈ parse_dates (extract_date_strings entries) ↔
      StreakEntry.strVal (some d) ∈ entries := by
  unfold parse_dates extract_date_strings
  rw [List.mem_filterMap]
  constructor
  · rintro ⟨od, hod, hid⟩
    rw [List.mem_filterMap] at hod
    obtain ⟨e, he, hmatch⟩ := hod
    match e with
    | StreakEntry.nonString => simp at hmatch
    | StreakEntry.strVal p =>
      simp at hmatch
      subst hmatch
      simp at hid
      subst hid
      exact he
  · intro h
    refine ⟨some d, ?_, rfl⟩
    rw [List.mem_filterMap]
    exact ⟨StreakEntry.strVal (some d), h, rfl⟩

/-- C8: the streak worker replies `ok = true` exactly when the payload
has a `dates` list with at least one parseable entry; in that case the
result carries the current and longest streaks computed from the parsed
dates, and in every other case the reply is an error. -/
theorem C8_theorem (today : Int) (p : StreakPayload) :
    ((∃ r, process_request today p = Except.ok r) ↔
      ∃ entries d, p = StreakPayload.datesList entries ∧
        StreakEntry.strVal (some d) ∈ entries) ∧
    (∀ entries, p = StreakPayload.datesList entries →
      parse_dates (extract_date_strings entries) ≠ [] →
      process_request today p = Except.ok
        ⟨calculate_current_streak today (parse_dates (extract_date_strings entries)),
         calculate_longest_streak (parse_dates (extract_date_strings entries))⟩) := by
  match p with
  | StreakPayload.notDict =>
    refine ⟨⟨?_, ?_⟩, ?_⟩
    · rintro ⟨r, hr⟩; simp [process_request] at hr
    · rintro ⟨es, d, hes, _⟩; exact absurd hes (by simp)
    · intro es hes; exact absurd hes (by simp)
  | StreakPayload.missingDates =>
    refine ⟨⟨?_, ?_⟩, ?_⟩
    · rintro ⟨r, hr⟩; simp [process_request] at hr
    · rintro ⟨es, d, hes, _⟩; exact absurd hes (by simp)
    · intro es hes; exact absurd hes (by simp)
  | StreakPayload.notList =>
    refine ⟨⟨?_, ?_⟩, ?_⟩
    · rintro ⟨r, hr⟩; simp [process_request] at hr
    · rintro ⟨es, d, hes, _⟩; exact absurd hes (by simp)
    · intro es hes; exact absurd hes (by simp)
  | StreakPayload.datesList entries =>
    by_cases hp : parse_dates (extract_date_strings entries) = []
    · refine ⟨⟨?_, ?_⟩, ?_⟩
      · rintro ⟨r, hr⟩
        simp only [process_request, if_pos hp] at hr
        exact Except.noConfusion hr
      · rintro ⟨es, d, hes, hd⟩
        have : es = entries := by injection hes.symm
        subst this
        have : d ∈ parse_dates (extract_date_strings es) := (mem_parse_extract es d).2 hd
        rw [hp] at this
        exact absurd this (List.not_mem_nil d)
      · intro es hes
        have : es = entries := by injection hes.symm
        subst this
        intro hne
        exact absurd hp hne
    · refine ⟨⟨?_, ?_⟩, ?_⟩
      · intro _
        obtain ⟨d, hd⟩ := List.exists_mem_of_ne_nil _ hp
        exact ⟨entries, d, rfl, (mem_parse_extract entries d).1 hd⟩
      · intro _
        exact ⟨⟨calculate_current_streak today (parse_dates (extract_date_strings entries)),
                calculate_longest_streak (parse_dates (extract_date_strings entries))⟩,
               by simp only [process_request, if_neg hp]⟩
      · intro es hes _
        have : es = entries := by injection hes.symm
        subst this
        simp only [process_request, if_neg hp]

/-- C8 witness: concrete payloads on both sides of the dichotomy. -/
theorem C8_witness :
    process_request 9 (StreakPayload.datesList
        [StreakEntry.nonString, StreakEntry.strVal none, StreakEntry.strVal (some 5)]) =
      Except.ok ⟨0, 1⟩ ∧
    ¬ ∃ r, process_request 9 (StreakPayload.datesList [StreakEntry.strVal none]) =
      Except.ok r := by
  constructor
  · have h := (C8_theorem 9 (StreakPayload.datesList
        [StreakEntry.nonString, StreakEntry.strVal none, StreakEntry.strVal (some 5)])).2
        _ rfl (by decide)
    rw [h]
    congr 1
  · intro hex
    have h := (C8_theorem 9 (StreakPayload.datesList [StreakEntry.strVal none])).1.1 hex
    obtain ⟨es, d, hes, hd⟩ := h
    have : es = [StreakEntry.strVal none] := by injection hes.symm
    subst this
    simp at hd

/-! ## Trend worker (`src/microservices/trend-analyzer.py`)

Bucket keys are strings in the source (`YYYY-MM-DD` for day and week,
`YYYY-MM` for month).  Here a key is a pair of integers:
`(ordinal, 0)` for day keys, `(monday ordinal, 0)` for week keys, and
`(year, month)` for month keys.  Each encoding is injective exactly when
the corresponding string formatting is, so key equality — the only
operation the dictionaries perform — is preserved. -/

/-- The three values `validate_request` admits for `bucket_type`. -/
inductive BucketType where
  | day
  | week
  | month
deriving DecidableEq

abbrev BucketKey := Int × Int

/-- `bucket_for_day`: the day itself (isoformat string in the source). -/
def bucket_for_day (d : Int) : BucketKey := (d, 0)

/-- `bucket_for_week`: the Monday that starts the week,
`d - timedelta(days=d.weekday())` with `weekday(d) = (d - 1) % 7`. -/
def bucket_for_week (d : Int) : BucketKey := (d - (d - 1) % 7, 0)

/-- Days-since-1970-01-01 to `(year, month, day)` in the proleptic
Gregorian calendar (the standard civil-from-days conversion; Python's
`datetime.date` uses the same calendar). -/
def civilFromDays (z0 : Int) : Int × Int × Int :=
  let z := z0 + 719468
  let era := Int.fdiv z 146097
  let doe := z - era * 146097
  let yoe := Int.fdiv (doe - Int.fdiv doe 1460 + Int.fdiv doe 36524 - Int.fdiv doe 146096) 365
  let y := yoe + era * 400
  let doy := doe - (365 * yoe + Int.fdiv yoe 4 - Int.fdiv yoe 100)
  let mp := Int.fdiv (5 * doy + 2) 153
  let dd := doy - Int.fdiv (153 * mp + 2) 5 + 1
  let m := mp + (if mp < 10 then 3 else -9)
  (y + (if m ≤ 2 then 1 else 0), m, dd)

/-- `bucket_for_month`: the `(year, month)` pair (formatted
`YYYY-MM` in the source); ordinal 719163 is 1970-01-01. -/
def bucket_for_month (d : Int) : BucketKey :=
  let c := civilFromDays (d - 719163)
  (c.1, c.2.1)

/-- Sanity check of the calendar conversion: ordinal 738886 is
2024-01-01. -/
theorem bucket_for_month_jan2024 : bucket_for_month 738886 = (2024, 1) := by decide

/-- `get_bucket_key(d, bucket_type)`; the `else: return None` branch is
unreachable because `validate_request` admits only these three values. -/
def get_bucket_key (d : Int) : BucketType → BucketKey
  | BucketType.day => bucket_for_day d
  | BucketType.week => bucket_for_week d
  | BucketType.month => bucket_for_month d

/-- Loop body of `compute_time_buckets`: skip invalid dates, otherwise
increment the bucket of the item's key. -/
def bucketStep (bt : BucketType) (buckets : List (BucketKey × Nat)) (od : Option Int) :
    List (BucketKey × Nat) :=
  match od with
  | none => buckets
  | some d => dictIncr buckets (get_bucket_key d bt)

/-- `compute_time_buckets(items, date_field, bucket_type)`: fold the
per-item increment over the items, starting from the empty dict. -/
def compute_time_buckets (items : List (Option Int)) (bucket_type : BucketType) :
    List (BucketKey × Nat) :=
  items.foldl (bucketStep bucket_type) []

/-- Does this (parsed) item land in bucket `k`? -/
def bucketPred (bt : BucketType) (k : BucketKey) (od : Option Int) : Bool :=
  match od with
  | none => false
  | some d => decide (get_bucket_key d bt = k)

/-- Number of validly dated items whose bucket key is `k`. -/
def keyCount (items : List (Option Int)) (bt : BucketType) (k : BucketKey) : Nat :=
  items.countP (bucketPred bt k)

/-- The mapping's value at key `k`, with absent keys counting as 0
(`buckets.get(key, 0)` semantics; unique keys make this the entry's
value). -/
def bucketValue (st : List (BucketKey × Nat)) (k : BucketKey) : Nat :=
  ((st.filter (fun p => decide (p.1 = k))).map Prod.snd).sum

theorem incrIfPresent_map_fst {α : Type} [DecidableEq α] (st : List (α × Nat)) (k0 : α) :
    (incrIfPresent st k0).map Prod.fst = st.map Prod.fst := by
  induction st with
  | nil => rfl
  | cons p rest ih =>
    unfold incrIfPresent
    by_cases h : p.1 = k0
    · rw [if_pos h]; simp
    · rw [if_neg h]; simp [ih]

theorem mem_keys_iff {α : Type} [DecidableEq α] (st : List (α × Nat)) (k : α) :
    k ∈ st.map Prod.fst ↔ ∃ v, (k, v) ∈ st := by
  rw [List.mem_map]
  constructor
  · rintro ⟨p, hp, rfl⟩
    exact ⟨p.2, by rwa [Prod.mk.eta]⟩
  · rintro ⟨v, hv⟩
    exact ⟨(k, v), hv, rfl⟩

theorem mem_incrIfPresent {α : Type} [DecidableEq α] :
    ∀ (st : List (α × Nat)), ((st.map Prod.fst).Nodup) → ∀ (k0 k : α) (v : Nat),
      ((k, v) ∈ incrIfPresent st k0 ↔
        ((k ≠ k0 ∧ (k, v) ∈ st) ∨
          (k = k0 ∧ ∃ v0, (k0, v0) ∈ st ∧ v = v0 + 1))) := by
  intro st
  induction st with
  | nil =>
    intro _ k0 k v
    simp [incrIfPresent]
  | cons p rest ih =>
    rcases p with ⟨a, b⟩
    intro hnd k0 k v
    simp only [List.map_cons, List.nodup_cons] at hnd
    obtain ⟨hhead, hndr⟩ := hnd
    by_cases hpk : a = k0
    · subst hpk
      rw [show incrIfPresent ((a, b) :: rest) a = (a, b + 1) :: rest from by
        simp [incrIfPresent]]
      constructor
      · intro hmem
        rcases List.mem_cons.1 hmem with heq | hr
        · rw [Prod.mk.injEq] at heq
          exact Or.inr ⟨heq.1, b, List.mem_cons_self _ _, heq.2⟩
        · refine Or.inl ⟨?_, List.mem_cons_of_mem _ hr⟩
          intro hkk
          have hmk : k ∈ rest.map Prod.fst := (mem_keys_iff rest k).2 ⟨v, hr⟩
          rw [hkk] at hmk
          exact hhead hmk
      · intro hmem
        rcases hmem with ⟨hne, hin⟩ | ⟨heq, v0, hv0, hv⟩
        · rcases List.mem_cons.1 hin with heq2 | hr
          · rw [Prod.mk.injEq] at heq2
            exact absurd heq2.1 hne
          · exact List.mem_cons_of_mem _ hr
        · rcases List.mem_cons.1 hv0 with heq2 | hr
          · rw [Prod.mk.injEq] at heq2
            apply List.mem_cons.2
            left
            rw [Prod.mk.injEq]
            refine ⟨heq, ?_⟩
            rw [hv, heq2.2]
          · exfalso
            exact hhead ((mem_keys_iff rest a).2 ⟨v0, hr⟩)
    · rw [show incrIfPresent ((a, b) :: rest) k0 = (a, b) :: incrIfPresent rest k0 from by
        simp [incrIfPresent, hpk]]
      constructor
      · intro hmem
        rcases List.mem_cons.1 hmem with heq | hr
        · rw [Prod.mk.injEq] at heq
          refine Or.inl ⟨?_, List.mem_cons.2 (Or.inl (by rw [Prod.mk.injEq]; exact heq))⟩
          rw [heq.1]
          exact hpk
        · rcases (ih hndr k0 k v).1 hr with ⟨hne, hin⟩ | ⟨heq, v0, hv0, hv⟩
          · exact Or.inl ⟨hne, List.mem_cons_of_mem _ hin⟩
          · exact Or.inr ⟨heq, v0, List.mem_cons_of_mem _ hv0, hv⟩
      · intro hmem
        rcases hmem with ⟨hne, hin⟩ | ⟨heq, v0, hv0, hv⟩
        · rcases List.mem_cons.1 hin with heq2 | hr
          · exact List.mem_cons.2 (Or.inl heq2)
          · exact List.mem_cons_of_mem _ ((ih hndr k0 k v).2 (Or.inl ⟨hne, hr⟩))
        · rcases List.mem_cons.1 hv0 with heq2 | hr
          · rw [Prod.mk.injEq] at heq2
            exact absurd heq2.1.symm hpk
          · exact List.mem_cons_of_mem _ ((ih hndr k0 k v).2 (Or.inr ⟨heq, v0, hr, hv⟩))

/-- One `dictIncr` step updates the count function at exactly the
incremented key, keeping keys unique and every stored count positive
and exact. -/
theorem dictIncr_spec {α : Type} [DecidableEq α] (st : List (α × Nat)) (f : α → Nat)
    (k0 : α) (hnd : (st.map Prod.fst).Nodup)
    (hiff : ∀ k v, (k, v) ∈ st ↔ (v = f k ∧ 1 ≤ f k)) :
    ((dictIncr st k0).map Prod.fst).Nodup ∧
      (∀ k v, (k, v) ∈ dictIncr st k0 ↔
        (v = (if k = k0 then f k + 1 else f k) ∧
          1 ≤ (if k = k0 then f k + 1 else f k))) := by
  unfold dictIncr
  by_cases hmem : k0 ∈ st.map Prod.fst
  · rw [if_pos hmem]
    obtain ⟨w0, hw0⟩ := (mem_keys_iff st k0).1 hmem
    have hw0f : w0 = f k0 ∧ 1 ≤ f k0 := (hiff k0 w0).1 hw0
    constructor
    · rw [incrIfPresent_map_fst]
      exact hnd
    · intro k v
      rw [mem_incrIfPresent st hnd k0 k v]
      by_cases hk : k = k0
      · subst hk
        rw [if_pos rfl]
        constructor
        · rintro (⟨hne, _⟩ | ⟨_, v0, hv0, hv⟩)
          · exact absurd rfl hne
          · have := (hiff k v0).1 hv0
            omega
        · rintro ⟨hv, _⟩
          right
          exact ⟨rfl, f k, (hiff k (f k)).2 ⟨rfl, hw0f.2⟩, hv⟩
      · rw [if_neg hk]
        constructor
        · rintro (⟨_, hin⟩ | ⟨heq, _⟩)
          · exact (hiff k v).1 hin
          · exact absurd heq hk
        · intro hv
          exact Or.inl ⟨hk, (hiff k v).2 hv⟩
  · rw [if_neg hmem]
    have hf0 : f k0 = 0 := by
      by_contra hne
      have h1 : 1 ≤ f k0 := by omega
      exact hmem ((mem_keys_iff st k0).2 ⟨f k0, (hiff k0 (f k0)).2 ⟨rfl, h1⟩⟩)
    constructor
    · rw [List.map_append]
      simp only [List.map_cons, List.map_nil]
      rw [List.nodup_append]
      exact ⟨hnd, List.nodup_singleton k0, by
        intro x hx
        simp only [List.mem_singleton]
        intro hxk
        rw [hxk] at hx
        exact hmem hx⟩
    · intro k v
      rw [List.mem_append, List.mem_singleton]
      by_cases hk : k = k0
      · subst hk
        rw [if_pos rfl]
        constructor
        · rintro (hin | heq)
          · exfalso
            exact hmem ((mem_keys_iff st k).2 ⟨v, hin⟩)
          · rw [Prod.mk.injEq] at heq
            exact ⟨by omega, by omega⟩
        · rintro ⟨hv, _⟩
          right
          rw [Prod.mk.injEq]
          exact ⟨rfl, by omega⟩
      · rw [if_neg hk]
        constructor
        · rintro (hin | heq)
          · exact (hiff k v).1 hin
          · rw [Prod.mk.injEq] at heq
            exact absurd heq.1 hk
        · intro hv
          exact Or.inl ((hiff k v).2 hv)

/-- Invariant of the `compute_time_buckets` fold: starting from a dict
that realizes the count function `f`, folding the items yields the dict
realizing `f` plus the bucket counts of the items. -/
theorem bucketStep_foldl_spec (bt : BucketType) :
    ∀ (items : List (Option Int)) (st : List (BucketKey × Nat)) (f : BucketKey → Nat),
      (st.map Prod.fst).Nodup →
      (∀ k v, (k, v) ∈ st ↔ (v = f k ∧ 1 ≤ f k)) →
      (((items.foldl (bucketStep bt) st).map Prod.fst).Nodup ∧
        (∀ k v, (k, v) ∈ items.foldl (bucketStep bt) st ↔
          (v = f k + keyCount items bt k ∧ 1 ≤ f k + keyCount items bt k))) := by
  intro items
  induction items with
  | nil =>
    intro st f hnd hiff
    refine ⟨hnd, ?_⟩
    intro k v
    simp only [List.foldl_nil]
    have h0 : keyCount [] bt k = 0 := rfl
    rw [h0]
    simpa using hiff k v
  | cons od rest ih =>
    intro st f hnd hiff
    match od with
    | none =>
      have hstep : (none :: rest).foldl (bucketStep bt) st = rest.foldl (bucketStep bt) st := rfl
      rw [hstep]
      obtain ⟨h1, h2⟩ := ih st f hnd hiff
      refine ⟨h1, ?_⟩
      intro k v
      rw [h2 k v]
      have hcnt : keyCount (none :: rest) bt k = keyCount rest bt k := by
        unfold keyCount
        rw [List.countP_cons]
        simp [bucketPred]
      rw [hcnt]
    | some d =>
      have hstep : ((some d) :: rest).foldl (bucketStep bt) st =
          rest.foldl (bucketStep bt) (dictIncr st (get_bucket_key d bt)) := rfl
      rw [hstep]
      obtain ⟨hnd2, hiff2⟩ := dictIncr_spec st f (get_bucket_key d bt) hnd hiff
      obtain ⟨h1, h2⟩ :=
        ih (dictIncr st (get_bucket_key d bt))
          (fun k => if k = get_bucket_key d bt then f k + 1 else f k) hnd2 hiff2
      refine ⟨h1, ?_⟩
      intro k v
      rw [h2 k v]
      have hcnt : keyCount ((some d) :: rest) bt k =
          keyCount rest bt k + (if k = get_bucket_key d bt then 1 else 0) := by
        unfold keyCount
        rw [List.countP_cons]
        simp only [bucketPred]
        by_cases hk : get_bucket_key d bt = k
        · rw [if_pos (by simp [hk]), if_pos hk.symm]
        · rw [if_neg (by simp [hk]), if_neg (fun h => hk h.symm)]
      rw [hcnt]
      by_cases hk : k = get_bucket_key d bt
      · rw [if_pos hk, if_pos hk]
        constructor
        · rintro ⟨hv, hge⟩; exact ⟨by omega, by omega⟩
        · rintro ⟨hv, hge⟩; exact ⟨by omega, by omega⟩
      · rw [if_neg hk, if_neg hk]
        constructor
        · rintro ⟨hv, hge⟩; exact ⟨by omega, by omega⟩
        · rintro ⟨hv, hge⟩; exact ⟨by omega, by omega⟩

/-- The bucket dict has unique keys and realizes exactly the bucket
counts of the validly dated items. -/
theorem compute_time_buckets_spec (items : List (Option Int)) (bt : BucketType) :
    (((compute_time_buckets items bt).map Prod.fst).Nodup ∧
      (∀ k v, (k, v) ∈ compute_time_buckets items bt ↔
        (v = keyCount items bt k ∧ 1 ≤ keyCount items bt k))) := by
  have h := bucketStep_foldl_spec bt items [] (fun _ => 0) (by simp) (by simp)
  obtain ⟨h1, h2⟩ := h
  refine ⟨h1, ?_⟩
  intro k v
  rw [show compute_time_buckets items bt = items.foldl (bucketStep bt) [] from rfl]
  rw [h2 k v]
  simp

theorem bucketValue_of_not_mem (st : List (BucketKey × Nat)) (k : BucketKey)
    (h : k ∉ st.map Prod.fst) : bucketValue st k = 0 := by
  unfold bucketValue
  have hfil : st.filter (fun p => decide (p.1 = k)) = [] := by
    rw [List.filter_eq_nil_iff]
    intro p hp
    simp only [decide_eq_true_eq]
    intro hpk
    exact h (by rw [← hpk]; exact List.mem_map_of_mem Prod.fst hp)
  rw [hfil]
  rfl

theorem bucketValue_of_mem :
    ∀ (st : List (BucketKey × Nat)) (k : BucketKey) (v : Nat),
      ((st.map Prod.fst).Nodup) → (k, v) ∈ st → bucketValue st k = v := by
  intro st
  induction st with
  | nil =>
    intro k v _ h
    exact absurd h (List.not_mem_nil _)
  | cons p rest ih =>
    intro k v hnd hmem
    simp only [List.map_cons, List.nodup_cons] at hnd
    obtain ⟨hhead, hndr⟩ := hnd
    rcases List.mem_cons.1 hmem with heq | hr
    · have hk : p.1 = k := by rw [← heq]
      have hv : p.2 = v := by rw [← heq]
      unfold bucketValue
      rw [show List.filter (fun q => decide (q.1 = k)) (p :: rest) =
          p :: List.filter (fun q => decide (q.1 = k)) rest from by
        rw [List.filter_cons_of_pos (by simp [hk])]]
      have hrest : List.filter (fun q => decide (q.1 = k)) rest = [] := by
        rw [List.filter_eq_nil_iff]
        intro q hq
        simp only [decide_eq_true_eq]
        intro hqk
        apply hhead
        rw [hk]
        rw [← hqk]
        exact List.mem_map_of_mem Prod.fst hq
      rw [hrest]
      simp [hv]
    · have hk : p.1 ≠ k := by
        intro hpk
        apply hhead
        rw [hpk]
        exact (mem_keys_iff rest k).2 ⟨v, hr⟩
      unfold bucketValue
      rw [show List.filter (fun q => decide (q.1 = k)) (p :: rest) =
          List.filter (fun q => decide (q.1 = k)) rest from by
        rw [List.filter_cons_of_neg (by simp [hk])]]
      exact ih k v hndr hr

/-- The mapping value at any key equals the number of validly dated
items bucketed there. -/
theorem bucketValue_buckets (items : List (Option Int)) (bt : BucketType) (k : BucketKey) :
    bucketValue (compute_time_buckets items bt) k = keyCount items bt k := by
  obtain ⟨hnd, hiff⟩ := compute_time_buckets_spec items bt
  by_cases h1 : 1 ≤ keyCount items bt k
  · exact bucketValue_of_mem _ k _ hnd ((hiff k (keyCount items bt k)).2 ⟨rfl, h1⟩)
  · have h0 : keyCount items bt k = 0 := by omega
    rw [h0]
    apply bucketValue_of_not_mem
    intro hmem
    obtain ⟨v, hv⟩ := (mem_keys_iff _ k).1 hmem
    have := (hiff k v).1 hv
    omega

/-- C10: the trend worker's bucket mapping contains no zero counts —
every stored count is at least 1 and equals the number of validly dated
items in that bucket — and its key set is exactly the set of bucket
keys of the validly dated items, for every bucket granularity. -/
theorem C10_theorem (items : List (Option Int)) (bt : BucketType) :
    (∀ k v, (k, v) ∈ compute_time_buckets items bt → 1 ≤ v) ∧
    (∀ k : BucketKey, (∃ v, (k, v) ∈ compute_time_buckets items bt) ↔
      ∃ d : Int, some d ∈ items ∧ get_bucket_key d bt = k) ∧
    (∀ k v, (k, v) ∈ compute_time_buckets items bt → v = keyCount items bt k) := by
  obtain ⟨hnd, hiff⟩ := compute_time_buckets_spec items bt
  refine ⟨?_, ?_, ?_⟩
  · intro k v hmem
    have := (hiff k v).1 hmem
    omega
  · intro k
    constructor
    · rintro ⟨v, hv⟩
      have h1 := (hiff k v).1 hv
      have hpos : 0 < items.countP (bucketPred bt k) := by
        have : keyCount items bt k = items.countP (bucketPred bt k) := rfl
        omega
      obtain ⟨od, hod, hpred⟩ := List.countP_pos_iff.1 hpos
      match od with
      | none => simp [bucketPred] at hpred
      | some d =>
        simp only [bucketPred, decide_eq_true_eq] at hpred
        exact ⟨d, hod, hpred⟩
    · rintro ⟨d, hd, hk⟩
      have hpos : 0 < items.countP (bucketPred bt k) := by
        rw [List.countP_pos_iff]
        exact ⟨some d, hd, by simp [bucketPred, hk]⟩
      exact ⟨keyCount items bt k, (hiff k (keyCount items bt k)).2 ⟨rfl, hpos⟩⟩
  · intro k v hmem
    exact ((hiff k v).1 hmem).1

/-- C10 witness: the theorem applied to a concrete two-item day query. -/
theorem C10_witness :
    1 ≤ 2 ∧ (∃ v, (((0 : Int), (0 : Int)), v) ∈
      compute_time_buckets [some 0, some 0] BucketType.day) :=
  ⟨(C10_theorem [some 0, some 0] BucketType.day).1 ((0 : Int), (0 : Int)) 2 (by decide),
   ((C10_theorem [some 0, some 0] BucketType.day).2.1 ((0 : Int), (0 : Int))).2
     ⟨0, by decide, by decide⟩⟩

/-- Per-item indicator identity behind the day/week re-bucketing law:
for a Monday `m`, a date hits exactly one of the seven day keys
`m .. m+6` iff its week key is `m`. -/
theorem day_indicator_sum (x m : Int) (hm : (m - 1) % 7 = 0) :
    (Finset.range 7).sum (fun i => if x = m + (i : ℤ) then (1 : ℕ) else 0) =
      (if x - (x - 1) % 7 = m then 1 else 0) := by
  by_cases hw : m ≤ x ∧ x < m + 7
  · have hj7 : (x - m).toNat ∈ Finset.range 7 := by
      rw [Finset.mem_range]
      omega
    have hcong : ∀ i ∈ Finset.range 7,
        (if x = m + (i : ℤ) then (1 : ℕ) else 0) =
          (if i = (x - m).toNat then (1 : ℕ) else 0) := by
      intro i hi
      rw [Finset.mem_range] at hi
      by_cases h : i = (x - m).toNat
      · rw [if_pos h, if_pos (by omega)]
      · rw [if_neg (by omega), if_neg h]
    rw [Finset.sum_congr rfl hcong,
      Finset.sum_ite_eq' (Finset.range 7) ((x - m).toNat) (fun _ => 1),
      if_pos hj7, if_pos (by omega)]
  · have hcong : ∀ i ∈ Finset.range 7,
        (if x = m + (i : ℤ) then (1 : ℕ) else 0) = 0 := by
      intro i hi
      rw [Finset.mem_range] at hi
      rw [if_neg (by omega)]
    rw [Finset.sum_congr rfl hcong]
    rw [if_neg (by omega)]
    exact Finset.sum_const_zero

/-- Summing the seven day-bucket counts of a week equals the week-bucket
count, for any item list and any Monday `m`. -/
theorem sum_day_eq_week (m : Int) (hm : (m - 1) % 7 = 0) :
    ∀ (items : List (Option Int)),
      (Finset.range 7).sum (fun i => keyCount items BucketType.day (m + (i : ℤ), 0)) =
        keyCount items BucketType.week (m, 0) := by
  intro items
  induction items with
  | nil =>
    unfold keyCount
    simp
  | cons od rest ih =>
    unfold keyCount at ih ⊢
    have hday : ∀ i : ℕ, List.countP (bucketPred BucketType.day (m + (i : ℤ), 0)) (od :: rest) =
        List.countP (bucketPred BucketType.day (m + (i : ℤ), 0)) rest +
          (if bucketPred BucketType.day (m + (i : ℤ), 0) od then 1 else 0) := by
      intro i
      rw [List.countP_cons]
    have hweek : List.countP (bucketPred BucketType.week (m, 0)) (od :: rest) =
        List.countP (bucketPred BucketType.week (m, 0)) rest +
          (if bucketPred BucketType.week (m, 0) od then 1 else 0) := by
      rw [List.countP_cons]
    rw [hweek]
    rw [Finset.sum_congr rfl (fun i _ => hday i)]
    rw [Finset.sum_add_distrib, ih]
    congr 1
    match od with
    | none => simp [bucketPred]
    | some x =>
      have hdayx : ∀ i : ℕ, (bucketPred BucketType.day (m + (i : ℤ), 0) (some x) = true) ↔
          x = m + (i : ℤ) := by
        intro i
        simp [bucketPred, get_bucket_key, bucket_for_day, Prod.mk.injEq]
      have hweekx : (bucketPred BucketType.week (m, 0) (some x) = true) ↔
          x - (x - 1) % 7 = m := by
        simp [bucketPred, get_bucket_key, bucket_for_week, Prod.mk.injEq]
      have hcong : ∀ i ∈ Finset.range 7,
          (if bucketPred BucketType.day (m + (i : ℤ), 0) (some x) then (1 : ℕ) else 0) =
            (if x = m + (i : ℤ) then (1 : ℕ) else 0) := by
        intro i _
        by_cases h : x = m + (i : ℤ)
        · rw [if_pos ((hdayx i).2 h), if_pos h]
        · rw [if_neg (fun hb => h ((hdayx i).1 hb)), if_neg h]
      rw [Finset.sum_congr rfl hcong, day_indicator_sum x m hm]
      by_cases h : x - (x - 1) % 7 = m
      · rw [if_pos h, if_pos (hweekx.2 h)]
      · rw [if_neg h, if_neg (fun hb => h (hweekx.1 hb))]

/-- C5: for any item list and any date `d`, the sum over the seven days
of `d`'s ISO week of the day-bucket counts equals the week-bucket count
at that week's Monday key (absent keys counting as 0). -/
theorem C5_theorem (items : List (Option Int)) (d : Int) :
    (Finset.range 7).sum (fun i =>
        bucketValue (compute_time_buckets items BucketType.day)
          (bucket_for_day ((bucket_for_week d).1 + (i : ℤ)))) =
      bucketValue (compute_time_buckets items BucketType.week) (bucket_for_week d) := by
  have hm : (((bucket_for_week d).1) - 1) % 7 = 0 := by
    unfold bucket_for_week
    omega
  have hkey : ∀ i : ℕ, bucket_for_day ((bucket_for_week d).1 + (i : ℤ)) =
      ((bucket_for_week d).1 + (i : ℤ), 0) := fun _ => rfl
  have hwk : bucket_for_week d = ((bucket_for_week d).1, 0) := rfl
  rw [hwk]
  rw [Finset.sum_congr rfl (fun i _ => by
    rw [hkey i, bucketValue_buckets])]
  rw [bucketValue_buckets]
  exact sum_day_eq_week ((bucket_for_week d).1) hm items

/-! ## Activity worker (`src/microservices/activity-analyzer.py`) -/

/-- `build_date_range(start_date, end_date)`: the inclusive day range
`start .. end` (the source's generator, materialized). -/
def build_date_range (s e : Int) : List Int :=
  (List.range (e + 1 - s).toNat).map (fun i : ℕ => s + (i : ℤ))

/-- Loop body of the counting phase of `compute_heatmap`: skip invalid
dates, and count a valid date only if its key is already in the map
(`if key in heatmap: heatmap[key] += 1`). -/
def heatmapStep (hm : List (Int × Nat)) (od : Option Int) : List (Int × Nat) :=
  match od with
  | none => hm
  | some d => incrIfPresent hm d

/-- `compute_heatmap(items, date_field, range_start_str, range_end_str)`
with the two range strings replaced by their `parse_iso_date` results:
error on an unparsable bound, error when `range_end < range_start`,
otherwise every day of the range initialized to 0 and one count added
per valid in-range item. -/
def compute_heatmap (items : List (Option Int)) (range_start range_end : Option Int) :
    Except String (List (Int × Nat)) :=
  match range_start, range_end with
  | some s, some e =>
    if e < s then
      Except.error "\x27range_end\x27 must be on or after \x27range_start\x27."
    else
      Except.ok (items.foldl heatmapStep ((build_date_range s e).map (fun d => (d, 0))))
  | _, _ =>
    Except.error "\x27range_start\x27 and \x27range_end\x27 must be valid ISO dates (YYYY-MM-DD)."

theorem build_date_range_nodup (s e : Int) : (build_date_range s e).Nodup := by
  unfold build_date_range
  exact (List.nodup_range _).map (fun i j h => by omega)

theorem mem_build_date_range (s e d : Int) :
    d ∈ build_date_range s e ↔ (s ≤ d ∧ d ≤ e) := by
  unfold build_date_range
  rw [List.mem_map]
  constructor
  · rintro ⟨i, hi, rfl⟩
    rw [List.mem_range] at hi
    omega
  · rintro ⟨h1, h2⟩
    refine ⟨(d - s).toNat, ?_, by omega⟩
    rw [List.mem_range]
    omega

theorem build_date_range_length (s e : Int) (h : s ≤ e) :
    (build_date_range s e).length = (e - s).toNat + 1 := by
  unfold build_date_range
  rw [List.length_map, List.length_range]
  omega

/-- Incrementing a keyed map at `d` bumps exactly the `d` entry. -/
theorem incrIfPresent_map_count :
    ∀ (ks : List Int), ks.Nodup → ∀ (f : Int → Nat) (d : Int),
      incrIfPresent (ks.map fun k => (k, f k)) d =
        ks.map (fun k => (k, if k = d then f k + 1 else f k)) := by
  intro ks
  induction ks with
  | nil => intro _ f d; rfl
  | cons a rest ih =>
    intro hnd f d
    rw [List.nodup_cons] at hnd
    obtain ⟨hhead, hndr⟩ := hnd
    simp only [List.map_cons]
    unfold incrIfPresent
    by_cases h : a = d
    · rw [if_pos (by simpa using h), if_pos h]
      congr 1
      apply List.map_congr_left
      intro k hk
      rw [if_neg]
      intro hkd
      rw [← h] at hkd
      rw [hkd] at hk
      exact hhead hk
    · rw [if_neg (by simpa using h), if_neg h]
      congr 1
      exact ih hndr f d

/-- Folding the counting loop over the items adds, at every key of the
initial map, the number of valid items equal to that key. -/
theorem heatmap_foldl (ks : List Int) (hnd : ks.Nodup) :
    ∀ (items : List (Option Int)) (f : Int → Nat),
      items.foldl heatmapStep (ks.map fun k => (k, f k)) =
        ks.map (fun k => (k, f k + items.countP (fun od => decide (od = some k)))) := by
  intro items
  induction items with
  | nil =>
    intro f
    simp only [List.foldl_nil]
    apply List.map_congr_left
    intro k _
    rw [show List.countP (fun od => decide (od = some k)) [] = 0 from rfl]
    rw [Nat.add_zero]
  | cons od rest ih =>
    intro f
    match od with
    | none =>
      rw [show (none :: rest).foldl heatmapStep (ks.map fun k => (k, f k)) =
          rest.foldl heatmapStep (ks.map fun k => (k, f k)) from rfl]
      rw [ih f]
      apply List.map_congr_left
      intro k _
      rw [List.countP_cons]
      simp
    | some dd =>
      rw [show ((some dd) :: rest).foldl heatmapStep (ks.map fun k => (k, f k)) =
          rest.foldl heatmapStep (incrIfPresent (ks.map fun k => (k, f k)) dd) from rfl]
      rw [incrIfPresent_map_count ks hnd f dd]
      rw [ih (fun k => if k = dd then f k + 1 else f k)]
      apply List.map_congr_left
      intro k _
      rw [List.countP_cons]
      by_cases h : k = dd
      · rw [if_pos h]
        rw [if_pos (by simp [h])]
        rw [Prod.mk.injEq]
        exact ⟨rfl, by omega⟩
      · rw [if_neg h]
        rw [if_neg (by simp; intro hdk; exact h hdk.symm)]
        rw [Nat.add_zero]

/-- C3: for parsed bounds with `range_start ≤ range_end` the heatmap is
exactly one entry per calendar day of the inclusive window — cardinality
`(range_end - range_start).days + 1` — each day counting the items whose
parsed date equals it (0 by default, out-of-window items ignored without
error); and `range_end < range_start` yields a validation error. -/
theorem C3_theorem (items : List (Option Int)) (s e : Int) :
    (s ≤ e →
      compute_heatmap items (some s) (some e) =
        Except.ok ((build_date_range s e).map
          (fun d => (d, items.countP (fun od => decide (od = some d))))) ∧
      (build_date_range s e).length = (e - s).toNat + 1 ∧
      (build_date_range s e).Nodup ∧
      (∀ d : Int, d ∈ build_date_range s e ↔ (s ≤ d ∧ d ≤ e))) ∧
    (e < s →
      compute_heatmap items (some s) (some e) =
        Except.error "\x27range_end\x27 must be on or after \x27range_start\x27.") := by
  constructor
  · intro hse
    refine ⟨?_, build_date_range_length s e hse, build_date_range_nodup s e,
      fun d => mem_build_date_range s e d⟩
    have hnl : ¬ e < s := by omega
    rw [show compute_heatmap items (some s) (some e) =
        if e < s then
          Except.error "\x27range_end\x27 must be on or after \x27range_start\x27."
        else
          Except.ok (items.foldl heatmapStep ((build_date_range s e).map (fun d => (d, 0))))
      from rfl]
    rw [if_neg hnl]
    have hfold := heatmap_foldl (build_date_range s e) (build_date_range_nodup s e)
      items (fun _ => 0)
    simp only [Nat.zero_add] at hfold
    rw [hfold]
  · intro hlt
    rw [show compute_heatmap items (some s) (some e) =
        if e < s then
          Except.error "\x27range_end\x27 must be on or after \x27range_start\x27."
        else
          Except.ok (items.foldl heatmapStep ((build_date_range s e).map (fun d => (d, 0))))
      from rfl]
    rw [if_pos hlt]

/-- C3 witness: the spec's scenario, window 0..2 with items on days 0,
0, 5 and one invalid item. -/
theorem C3_witness :
    compute_heatmap [some 0, some 0, some 5, none] (some 0) (some 2) =
      Except.ok [(0, 2), (1, 0), (2, 0)] ∧
    compute_heatmap [some 0] (some 3) (some 1) =
      Except.error "\x27range_end\x27 must be on or after \x27range_start\x27." := by
  constructor
  · have h1 := ((C3_theorem [some 0, some 0, some 5, none] 0 2).1 (by norm_num)).1
    have h2 : (build_date_range 0 2).map
        (fun d => (d, List.countP (fun od => decide (od = some d))
          [some 0, some 0, some 5, none])) = [(0, 2), (1, 0), (2, 0)] := by decide
    rw [h1, h2]
  · exact (C3_theorem [some 0] 3 1).2 (by norm_num)

/-! ### Longest active run (`find_longest_active_run`) -/

/-- The run dict returned by `find_longest_active_run` (`length_days`,
`start_date`, `end_date`; dates as isoformat strings in the source). -/
structure RunResult where
  length_days : Nat
  start_date : Option Int
  end_date : Option Int
deriving DecidableEq

/-- The loop variables of `find_longest_active_run`. -/
structure RunState where
  best_length : Nat
  best_start : Int
  best_end : Int
  current_start : Int
  current_end : Int
  current_length : Nat
deriving DecidableEq

/-- The "streak ended, compare with best" block: replace the best run by
the current one only when strictly longer (equal length keeps the
earlier run). -/
def closeRun (st : RunState) : RunState :=
  if st.best_length < st.current_length then
    { st with
      best_length := st.current_length
      best_start := st.current_start
      best_end := st.current_end }
  else st

/-- The `for i in range(1, len(dates))` loop.  The previous element
`dates[i-1]` always equals `current_end` (both branches set it to the
element just consumed), so the fold carries it there. -/
def runFold (st : RunState) : List Int → RunState
  | [] => st
  | curr :: rest =>
    if curr = st.current_end + 1 then
      runFold { st with current_end := curr, current_length := st.current_length + 1 } rest
    else
      runFold { closeRun st with
        current_start := curr
        current_end := curr
        current_length := 1 } rest

/-- `find_longest_active_run(dates)` over a sorted duplicate-free list:
initialize best and current to the first date, run the loop, then do the
final comparison. -/
def find_longest_active_run : List Int → RunResult
  | [] => ⟨0, none, none⟩
  | d :: rest =>
    let st := closeRun (runFold ⟨1, d, d, d, d, 1⟩ rest)
    ⟨st.best_length, some st.best_start, some st.best_end⟩

/-- Insert into a strictly sorted list, dropping duplicates.  (The
source builds a Python `set` and sorts it; a strictly sorted list with
the same membership is that value.) -/
def insertUnique (x : Int) : List Int → List Int
  | [] => [x]
  | y :: ys =>
    if x < y then x :: y :: ys
    else if x = y then y :: ys
    else y :: insertUnique x ys

/-- One step of `extract_unique_dates`: add a parsed date to the set,
skip invalid ones. -/
def extractStep (acc : List Int) (od : Option Int) : List Int :=
  match od with
  | some d => insertUnique d acc
  | none => acc

/-- `extract_unique_dates(items, date_field)`: the sorted list of the
distinct parsed dates. -/
def extract_unique_dates (items : List (Option Int)) : List Int :=
  items.foldl extractStep []

/-- Invariant tying the loop state of `find_longest_active_run` to the
set `P` of dates consumed so far: the current block is the maximal run
ending at the largest consumed date, and the best run is a run of `P`
that dominates (in length, with earliest-start tie-break) every run of
`P` lying strictly before the current block. -/
structure RunInv (P : Int → Prop) (st : RunState) : Prop where
  cl_pos : 1 ≤ st.current_length
  bl_pos : 1 ≤ st.best_length
  ce_eq : st.current_end + 1 = st.current_start + (st.current_length : ℤ)
  be_eq : st.best_end + 1 = st.best_start + (st.best_length : ℤ)
  run_cur : ∀ i : Nat, i < st.current_length → P (st.current_start + (i : ℤ))
  run_best : ∀ i : Nat, i < st.best_length → P (st.best_start + (i : ℤ))
  upper : ∀ y : Int, P y → y ≤ st.current_end
  cs_new : ¬ P (st.current_start - 1)
  bs_le : st.best_start ≤ st.current_start
  before_bound : ∀ (s : Int) (l : Nat), (∀ i : Nat, i < l → P (s + (i : ℤ))) →
    s + (l : ℤ) ≤ st.current_start - 1 → l ≤ st.best_length
  before_earliest : ∀ s : Int, (∀ i : Nat, i < st.best_length → P (s + (i : ℤ))) →
    s + (st.best_length : ℤ) ≤ st.current_start - 1 → st.best_start ≤ s

theorem RunInv_congr {P Q : Int → Prop} (h : ∀ x, P x ↔ Q x) {st : RunState}
    (hInv : RunInv P st) : RunInv Q st := by
  have hPQ : P = Q := funext fun x => propext (h x)
  rwa [hPQ] at hInv

/-- Every run inside `P` lies either strictly before the current block
or inside it (`current_start - 1` is not in `P`). -/
theorem runInv_run_cases {P : Int → Prop} {st : RunState} (hInv : RunInv P st)
    (s : Int) (l : Nat) (hl : 1 ≤ l)
    (hrun : ∀ i : Nat, i < l → P (s + (i : ℤ))) :
    s + (l : ℤ) ≤ st.current_start - 1 ∨
      (st.current_start ≤ s ∧ s + (l : ℤ) ≤ st.current_end + 1) := by
  by_cases hs : st.current_start ≤ s
  · right
    refine ⟨hs, ?_⟩
    have hlast := hInv.upper (s + ((l - 1 : ℕ) : ℤ)) (hrun (l - 1) (by omega))
    omega
  · left
    by_contra hc
    push_neg at hc
    have hi : ((st.current_start - 1 - s).toNat : ℤ) = st.current_start - 1 - s := by omega
    have hmem := hrun (st.current_start - 1 - s).toNat (by omega)
    rw [hi] at hmem
    have : P (st.current_start - 1) := by
      have he : s + (st.current_start - 1 - s) = st.current_start - 1 := by ring
      rwa [he] at hmem
    exact hInv.cs_new this

/-- Invariant preservation, continue branch (`curr == prev + 1 day`). -/
theorem runInv_continue {P : Int → Prop} {st : RunState} (hInv : RunInv P st) (curr : Int)
    (hc : curr = st.current_end + 1) :
    RunInv (fun x => P x ∨ x = curr)
      { st with current_end := curr, current_length := st.current_length + 1 } := by
  have hce := hInv.ce_eq
  have hclp := hInv.cl_pos
  refine ⟨?_, ?_, ?_, ?_, ?_, ?_, ?_, ?_, ?_, ?_, ?_⟩ <;> dsimp only
  · omega
  · exact hInv.bl_pos
  · omega
  · exact hInv.be_eq
  · intro i hi
    by_cases hi2 : i < st.current_length
    · exact Or.inl (hInv.run_cur i hi2)
    · right
      omega
  · intro i hi
    exact Or.inl (hInv.run_best i hi)
  · intro y hy
    rcases hy with h | h
    · have := hInv.upper y h
      omega
    · omega
  · rintro (h | h)
    · exact hInv.cs_new h
    · omega
  · exact hInv.bs_le
  · intro s l hrun hsl
    refine hInv.before_bound s l ?_ hsl
    intro i hi
    rcases hrun i hi with h | h
    · exact h
    · exfalso
      omega
  · intro s hrun hsl
    refine hInv.before_earliest s ?_ hsl
    intro i hi
    rcases hrun i hi with h | h
    · exact h
    · exfalso
      have := hInv.bl_pos
      omega

/-- Invariant preservation, break branch (a gap of at least one day
before `curr` closes the current block). -/
theorem runInv_break {P : Int → Prop} {st : RunState} (hInv : RunInv P st) (curr : Int)
    (hgt : st.current_end + 2 ≤ curr) :
    RunInv (fun x => P x ∨ x = curr)
      { closeRun st with current_start := curr, current_end := curr, current_length := 1 } := by
  have hce := hInv.ce_eq
  have hbe := hInv.be_eq
  have hclp := hInv.cl_pos
  have hblp := hInv.bl_pos
  have hbsle := hInv.bs_le
  unfold closeRun
  by_cases hcmp : st.best_length < st.current_length
  · rw [if_pos hcmp]
    refine ⟨?_, ?_, ?_, ?_, ?_, ?_, ?_, ?_, ?_, ?_, ?_⟩ <;> dsimp only
    · omega
    · exact hclp
    · omega
    · exact hce
    · intro i hi
      right
      omega
    · intro i hi
      exact Or.inl (hInv.run_cur i hi)
    · intro y hy
      rcases hy with h | h
      · have := hInv.upper y h
        omega
      · omega
    · rintro (h | h)
      · have := hInv.upper _ h
        omega
      · omega
    · omega
    · intro s l hrun hsl
      by_cases hl0 : l = 0
      · omega
      have hl1 : 1 ≤ l := by omega
      have hrunP : ∀ i : Nat, i < l → P (s + (i : ℤ)) := by
        intro i hi
        rcases hrun i hi with h | h
        · exact h
        · exfalso
          omega
      rcases runInv_run_cases hInv s l hl1 hrunP with hb | ⟨h1, h2⟩
      · have := hInv.before_bound s l hrunP hb
        omega
      · omega
    · intro s hrun hsl
      have hrunP : ∀ i : Nat, i < st.current_length → P (s + (i : ℤ)) := by
        intro i hi
        rcases hrun i hi with h | h
        · exact h
        · exfalso
          omega
      rcases runInv_run_cases hInv s st.current_length hclp hrunP with hb | ⟨h1, h2⟩
      · have := hInv.before_bound s st.current_length hrunP hb
        omega
      · exact h1
  · rw [if_neg hcmp]
    refine ⟨?_, ?_, ?_, ?_, ?_, ?_, ?_, ?_, ?_, ?_, ?_⟩ <;> dsimp only
    · omega
    · exact hblp
    · omega
    · exact hbe
    · intro i hi
      right
      omega
    · intro i hi
      exact Or.inl (hInv.run_best i hi)
    · intro y hy
      rcases hy with h | h
      · have := hInv.upper y h
        omega
      · omega
    · rintro (h | h)
      · have := hInv.upper _ h
        omega
      · omega
    · omega
    · intro s l hrun hsl
      by_cases hl0 : l = 0
      · omega
      have hl1 : 1 ≤ l := by omega
      have hrunP : ∀ i : Nat, i < l → P (s + (i : ℤ)) := by
        intro i hi
        rcases hrun i hi with h | h
        · exact h
        · exfalso
          omega
      rcases runInv_run_cases hInv s l hl1 hrunP with hb | ⟨h1, h2⟩
      · have := hInv.before_bound s l hrunP hb
        omega
      · omega
    · intro s hrun hsl
      have hrunP : ∀ i : Nat, i < st.best_length → P (s + (i : ℤ)) := by
        intro i hi
        rcases hrun i hi with h | h
        · exact h
        · exfalso
          omega
      rcases runInv_run_cases hInv s st.best_length hblp hrunP with hb | ⟨h1, h2⟩
      · exact hInv.before_earliest s hrunP hb
      · omega

/-- Running the loop over a strictly increasing suffix preserves the
invariant, with the consumed dates added to the set. -/
theorem runFold_inv :
    ∀ (rest : List Int) (P : Int → Prop) (st : RunState),
      RunInv P st → List.Chain' (· < ·) (st.current_end :: rest) →
      RunInv (fun x => P x ∨ x ∈ rest) (runFold st rest) := by
  intro rest
  induction rest with
  | nil =>
    intro P st hInv _
    refine RunInv_congr (fun x => ?_) hInv
    simp
  | cons curr rest ih =>
    intro P st hInv hchain
    rw [List.chain'_cons] at hchain
    obtain ⟨hlt, hchain2⟩ := hchain
    have hstep : runFold st (curr :: rest) =
        if curr = st.current_end + 1 then
          runFold { st with current_end := curr, current_length := st.current_length + 1 } rest
        else
          runFold { closeRun st with
            current_start := curr
            current_end := curr
            current_length := 1 } rest := by
      simp only [runFold]
    rw [hstep]
    by_cases hc : curr = st.current_end + 1
    · rw [if_pos hc]
      have hInv2 := runInv_continue hInv curr hc
      have h3 := ih (fun x => P x ∨ x = curr)
        { st with current_end := curr, current_length := st.current_length + 1 } hInv2 hchain2
      refine RunInv_congr (fun x => ?_) h3
      rw [List.mem_cons]
      tauto
    · rw [if_neg hc]
      have hgt : st.current_end + 2 ≤ curr := by omega
      have hInv2 := runInv_break hInv curr hgt
      have h3 := ih (fun x => P x ∨ x = curr)
        { closeRun st with current_start := curr, current_end := curr, current_length := 1 }
        hInv2 hchain2
      refine RunInv_congr (fun x => ?_) h3
      rw [List.mem_cons]
      tauto

/-- Full correctness of `find_longest_active_run` on a strictly sorted
nonempty list: the reported run is a run of the list, of maximum length,
and earliest among the maximum-length runs. -/
theorem find_longest_active_run_spec (L : List Int) (hne : L ≠ [])
    (hsorted : List.Chain' (· < ·) L) :
    ∃ s : Int,
      (find_longest_active_run L).start_date = some s ∧
      (find_longest_active_run L).end_date =
        some (s + ((find_longest_active_run L).length_days : ℤ) - 1) ∧
      1 ≤ (find_longest_active_run L).length_days ∧
      (∀ i : Nat, i < (find_longest_active_run L).length_days → (s + (i : ℤ)) ∈ L) ∧
      (∀ (t : Int) (l : Nat), (∀ i : Nat, i < l → (t + (i : ℤ)) ∈ L) →
        l ≤ (find_longest_active_run L).length_days) ∧
      (∀ t : Int, (∀ i : Nat, i < (find_longest_active_run L).length_days →
        (t + (i : ℤ)) ∈ L) → s ≤ t) := by
  match L, hne with
  | d :: rest, _ =>
    have hInv0 : RunInv (fun x => x = d) ⟨1, d, d, d, d, 1⟩ := by
      refine ⟨?_, ?_, ?_, ?_, ?_, ?_, ?_, ?_, ?_, ?_, ?_⟩ <;> dsimp only
      · omega
      · omega
      · omega
      · omega
      · intro i hi
        omega
      · intro i hi
        omega
      · intro y hy
        omega
      · omega
      · omega
      · intro s l hrun hsl
        by_cases hl0 : l = 0
        · omega
        · have h0 := hrun 0 (by omega)
          omega
      · intro s hrun hsl
        have h0 := hrun 0 (by omega)
        omega
    have hInvF := runFold_inv rest (fun x => x = d) ⟨1, d, d, d, d, 1⟩ hInv0 hsorted
    have hInvM : RunInv (fun x => x ∈ d :: rest) (runFold ⟨1, d, d, d, d, 1⟩ rest) := by
      refine RunInv_congr (fun x => ?_) hInvF
      rw [List.mem_cons]
    have hres : find_longest_active_run (d :: rest) =
        ⟨(closeRun (runFold ⟨1, d, d, d, d, 1⟩ rest)).best_length,
         some (closeRun (runFold ⟨1, d, d, d, d, 1⟩ rest)).best_start,
         some (closeRun (runFold ⟨1, d, d, d, d, 1⟩ rest)).best_end⟩ := rfl
    have hce := hInvM.ce_eq
    have hbe := hInvM.be_eq
    have hclp := hInvM.cl_pos
    have hblp := hInvM.bl_pos
    have hbsle := hInvM.bs_le
    have hcases :
        ((closeRun (runFold ⟨1, d, d, d, d, 1⟩ rest)).best_length =
            (runFold ⟨1, d, d, d, d, 1⟩ rest).best_length ∧
          (closeRun (runFold ⟨1, d, d, d, d, 1⟩ rest)).best_start =
            (runFold ⟨1, d, d, d, d, 1⟩ rest).best_start ∧
          (closeRun (runFold ⟨1, d, d, d, d, 1⟩ rest)).best_end =
            (runFold ⟨1, d, d, d, d, 1⟩ rest).best_end ∧
          (runFold ⟨1, d, d, d, d, 1⟩ rest).current_length ≤
            (runFold ⟨1, d, d, d, d, 1⟩ rest).best_length) ∨
        ((closeRun (runFold ⟨1, d, d, d, d, 1⟩ rest)).best_length =
            (runFold ⟨1, d, d, d, d, 1⟩ rest).current_length ∧
          (closeRun (runFold ⟨1, d, d, d, d, 1⟩ rest)).best_start =
            (runFold ⟨1, d, d, d, d, 1⟩ rest).current_start ∧
          (closeRun (runFold ⟨1, d, d, d, d, 1⟩ rest)).best_end =
            (runFold ⟨1, d, d, d, d, 1⟩ rest).current_end ∧
          (runFold ⟨1, d, d, d, d, 1⟩ rest).best_length <
            (runFold ⟨1, d, d, d, d, 1⟩ rest).current_length) := by
      unfold closeRun
      by_cases h : (runFold ⟨1, d, d, d, d, 1⟩ rest).best_length <
          (runFold ⟨1, d, d, d, d, 1⟩ rest).current_length
      · rw [if_pos h]
        exact Or.inr ⟨rfl, rfl, rfl, h⟩
      · rw [if_neg h]
        exact Or.inl ⟨rfl, rfl, rfl, by omega⟩
    rw [hres]
    refine ⟨(closeRun (runFold ⟨1, d, d, d, d, 1⟩ rest)).best_start, rfl, ?_, ?_, ?_, ?_, ?_⟩
    · dsimp only
      rcases hcases with ⟨he1, he2, he3, _⟩ | ⟨he1, he2, he3, _⟩ <;>
        rw [he1, he2, he3] <;>
        exact congrArg some (by omega)
    · dsimp only
      rcases hcases with ⟨he1, _, _, _⟩ | ⟨he1, _, _, _⟩ <;> omega
    · dsimp only
      intro i hi
      rcases hcases with ⟨he1, he2, _, _⟩ | ⟨he1, he2, _, _⟩
      · rw [he2]
        exact hInvM.run_best i (by omega)
      · rw [he2]
        exact hInvM.run_cur i (by omega)
    · dsimp only
      intro t l hrun
      by_cases hl0 : l = 0
      · rcases hcases with ⟨he1, _, _, _⟩ | ⟨he1, _, _, _⟩ <;> omega
      have hl1 : 1 ≤ l := by omega
      rcases runInv_run_cases hInvM t l hl1 hrun with hb | ⟨h1, h2⟩
      · have := hInvM.before_bound t l hrun hb
        rcases hcases with ⟨he1, _, _, hc4⟩ | ⟨he1, _, _, hc4⟩ <;> omega
      · rcases hcases with ⟨he1, _, _, hc4⟩ | ⟨he1, _, _, hc4⟩ <;> omega
    · dsimp only
      intro t hrun
      rcases hcases with ⟨he1, he2, _, hc4⟩ | ⟨he1, he2, _, hc4⟩
      · rw [he1] at hrun
        rw [he2]
        rcases runInv_run_cases hInvM t (runFold ⟨1, d, d, d, d, 1⟩ rest).best_length
            hblp hrun with hb | ⟨h1, h2⟩
        · exact hInvM.before_earliest t hrun hb
        · omega
      · rw [he1] at hrun
        rw [he2]
        rcases runInv_run_cases hInvM t (runFold ⟨1, d, d, d, d, 1⟩ rest).current_length
            hclp hrun with hb | ⟨h1, h2⟩
        · have := hInvM.before_bound t _ hrun hb
          omega
        · omega

theorem insertUnique_mem (x : Int) :
    ∀ (l : List Int) (a : Int), a ∈ insertUnique x l ↔ (a = x ∨ a ∈ l) := by
  intro l
  induction l with
  | nil =>
    intro a
    simp [insertUnique]
  | cons y ys ih =>
    intro a
    unfold insertUnique
    split_ifs with h1 h2
    · simp [List.mem_cons]
    · subst h2
      simp [List.mem_cons]
    · rw [List.mem_cons, ih a, List.mem_cons]
      tauto

theorem insertUnique_pairwise (x : Int) :
    ∀ (l : List Int), l.Pairwise (· < ·) → (insertUnique x l).Pairwise (· < ·) := by
  intro l
  induction l with
  | nil =>
    intro _
    simp [insertUnique]
  | cons y ys ih =>
    intro hp
    rw [List.pairwise_cons] at hp
    obtain ⟨hy, hys⟩ := hp
    unfold insertUnique
    split_ifs with h1 h2
    · rw [List.pairwise_cons]
      refine ⟨?_, List.pairwise_cons.2 ⟨hy, hys⟩⟩
      intro z hz
      rcases List.mem_cons.1 hz with rfl | h
      · exact h1
      · exact lt_trans h1 (hy z h)
    · exact List.pairwise_cons.2 ⟨hy, hys⟩
    · rw [List.pairwise_cons]
      refine ⟨?_, ih hys⟩
      intro z hz
      rcases (insertUnique_mem x ys z).1 hz with rfl | h
      · omega
      · exact hy z h

theorem extract_foldl_spec :
    ∀ (items : List (Option Int)) (acc : List Int), acc.Pairwise (· < ·) →
      ((items.foldl extractStep acc).Pairwise (· < ·) ∧
        (∀ a : Int, a ∈ items.foldl extractStep acc ↔ (a ∈ acc ∨ some a ∈ items))) := by
  intro items
  induction items with
  | nil =>
    intro acc hacc
    refine ⟨hacc, fun a => ?_⟩
    simp
  | cons od rest ih =>
    intro acc hacc
    match od with
    | none =>
      have hstep : (none :: rest).foldl extractStep acc = rest.foldl extractStep acc := rfl
      rw [hstep]
      obtain ⟨h1, h2⟩ := ih acc hacc
      refine ⟨h1, fun a => ?_⟩
      rw [h2 a, List.mem_cons]
      simp
    | some dd =>
      have hstep : ((some dd) :: rest).foldl extractStep acc =
          rest.foldl extractStep (insertUnique dd acc) := rfl
      rw [hstep]
      obtain ⟨h1, h2⟩ := ih (insertUnique dd acc) (insertUnique_pairwise dd acc hacc)
      refine ⟨h1, fun a => ?_⟩
      rw [h2 a, insertUnique_mem dd acc a, List.mem_cons, Option.some.injEq]
      tauto

/-- `extract_unique_dates` is strictly sorted and contains exactly the
successfully parsed dates of the items. -/
theorem extract_unique_dates_spec (items : List (Option Int)) :
    (extract_unique_dates items).Pairwise (· < ·) ∧
      (∀ a : Int, a ∈ extract_unique_dates items ↔ some a ∈ items) := by
  obtain ⟨h1, h2⟩ := extract_foldl_spec items [] (List.Pairwise.nil)
  refine ⟨h1, fun a => ?_⟩
  rw [show extract_unique_dates items = items.foldl extractStep [] from rfl, h2 a]
  simp

/-- C4: on any item list whose date field parses for at least one item,
the run reported by the activity worker is a contiguous run of days all
present among the parsed dates, no run of parsed dates is longer, and
every run of the same (maximal) length starts no earlier. -/
theorem C4_theorem (items : List (Option Int))
    (hne : extract_unique_dates items ≠ []) :
    ∃ s : Int,
      (find_longest_active_run (extract_unique_dates items)).start_date = some s ∧
      (find_longest_active_run (extract_unique_dates items)).end_date =
        some (s + ((find_longest_active_run (extract_unique_dates items)).length_days : ℤ) - 1) ∧
      1 ≤ (find_longest_active_run (extract_unique_dates items)).length_days ∧
      (∀ i : Nat, i < (find_longest_active_run (extract_unique_dates items)).length_days →
        some (s + (i : ℤ)) ∈ items) ∧
      (∀ (t : Int) (l : Nat), (∀ i : Nat, i < l → some (t + (i : ℤ)) ∈ items) →
        l ≤ (find_longest_active_run (extract_unique_dates items)).length_days) ∧
      (∀ t : Int, (∀ i : Nat,
          i < (find_longest_active_run (extract_unique_dates items)).length_days →
          some (t + (i : ℤ)) ∈ items) → s ≤ t) := by
  obtain ⟨hsort, hmem⟩ := extract_unique_dates_spec items
  have hchain : List.Chain' (· < ·) (extract_unique_dates items) :=
    List.chain'_iff_pairwise.2 hsort
  obtain ⟨s, hs1, hs2, hs3, hs4, hs5, hs6⟩ :=
    find_longest_active_run_spec (extract_unique_dates items) hne hchain
  refine ⟨s, hs1, hs2, hs3, ?_, ?_, ?_⟩
  · intro i hi
    exact (hmem _).1 (hs4 i hi)
  · intro t l hrun
    exact hs5 t l (fun i hi => (hmem _).2 (hrun i hi))
  · intro t hrun
    exact hs6 t (fun i hi => (hmem _).2 (hrun i hi))

/-- C4 witness: items on days 10, 12, 13 — two runs, the longer one
(12..13) is reported. -/
theorem C4_witness :
    extract_unique_dates [some 10, some 12, some 13] ≠ [] ∧
      (∃ s : Int,
        (find_longest_active_run (extract_unique_dates [some 10, some 12, some 13])).start_date =
          some s ∧
        (find_longest_active_run (extract_unique_dates [some 10, some 12, some 13])).end_date =
          some (s + ((find_longest_active_run
            (extract_unique_dates [some 10, some 12, some 13])).length_days : ℤ) - 1) ∧
        1 ≤ (find_longest_active_run
          (extract_unique_dates [some 10, some 12, some 13])).length_days ∧
        (∀ i : Nat, i < (find_longest_active_run
            (extract_unique_dates [some 10, some 12, some 13])).length_days →
          some (s + (i : ℤ)) ∈ [some 10, some 12, some 13]) ∧
        (∀ (t : Int) (l : Nat),
          (∀ i : Nat, i < l → some (t + (i : ℤ)) ∈ [some 10, some 12, some 13]) →
          l ≤ (find_longest_active_run
            (extract_unique_dates [some 10, some 12, some 13])).length_days) ∧
        (∀ t : Int, (∀ i : Nat, i < (find_longest_active_run
            (extract_unique_dates [some 10, some 12, some 13])).length_days →
            some (t + (i : ℤ)) ∈ [some 10, some 12, some 13]) → s ≤ t)) :=
  ⟨by decide, C4_theorem [some 10, some 12, some 13] (by decide)⟩

/-! ### Multi-goal mode (`compute_multi_goals`) -/

/-- The value found at `goal.get("current")` / `goal.get("target")`:
absent-or-null (`None`, caught by the missing-field check), present but
rejected by `float()` (carrying the string rendering of the offending
value used in the error message), or numeric with value `q`. -/
inductive RawVal where
  | missing
  | invalid (txt : String)
  | numeric (q : ℚ)
deriving DecidableEq

/-- `to_float(value)`: the `(float_value, error_message_or_None)` pair,
modelled as `Except`. -/
def to_float : RawVal → Except String ℚ
  | RawVal.numeric q => Except.ok q
  | RawVal.invalid s =>
      Except.error ("Value \x27" ++ s ++ "\x27 is not a valid number.")
  | RawVal.missing => Except.error "Value \x27None\x27 is not a valid number."

/-- One goal object of a multi-goal request; `id` and `label` are the
optional pass-through fields (opaque, modelled as strings). -/
structure Goal where
  current : RawVal
  target : RawVal
  id : Option String
  label : Option String
deriving DecidableEq

/-- One entry of `goals_summary`: the `compute_progress` dict plus the
echoed `id`/`label` when present. -/
structure GoalSummary where
  progress : ProgressResult
  id : Option String
  label : Option String
deriving DecidableEq

/-- The loop of `compute_multi_goals` with its running index: missing
field check first, then `to_float` on current, then on target, then the
goal summary; any failure aborts the whole batch with a message naming
the index. -/
def multiGoalsAux : Nat → List Goal → Except String (List GoalSummary)
  | _, [] => Except.ok []
  | idx, g :: rest =>
    if g.current = RawVal.missing ∨ g.target = RawVal.missing then
      Except.error ("Goal at index " ++ toString idx ++
        " is missing \x27current\x27 or \x27target\x27.")
    else
      match to_float g.current with
      | Except.error e =>
        Except.error ("Goal at index " ++ toString idx ++ " has invalid \x27current\x27: " ++ e)
      | Except.ok c =>
        match to_float g.target with
        | Except.error e =>
          Except.error ("Goal at index " ++ toString idx ++ " has invalid \x27target\x27: " ++ e)
        | Except.ok t =>
          match multiGoalsAux (idx + 1) rest with
          | Except.error e => Except.error e
          | Except.ok summaries =>
            Except.ok (⟨compute_progress c t, g.id, g.label⟩ :: summaries)

/-- `compute_multi_goals(goals)`. -/
def compute_multi_goals (goals : List Goal) : Except String (List GoalSummary) :=
  multiGoalsAux 0 goals

/-- A goal is malformed when `current` or `target` is missing or
non-numeric. -/
def goalMalformed (g : Goal) : Bool :=
  match g.current, g.target with
  | RawVal.numeric _, RawVal.numeric _ => false
  | _, _ => true

def goalValue : RawVal → ℚ
  | RawVal.numeric q => q
  | _ => 0

/-- The summary of a well-formed goal. -/
def summarize (g : Goal) : GoalSummary :=
  ⟨compute_progress (goalValue g.current) (goalValue g.target), g.id, g.label⟩

theorem multiGoalsAux_ok :
    ∀ (goals : List Goal) (idx : Nat), (∀ g ∈ goals, goalMalformed g = false) →
      multiGoalsAux idx goals = Except.ok (goals.map summarize) := by
  intro goals
  induction goals with
  | nil =>
    intro idx _
    rfl
  | cons g rest ih =>
    intro idx hall
    have hg := hall g (List.mem_cons_self g rest)
    obtain ⟨gc, gt, gid, glabel⟩ := g
    cases gc with
    | missing => simp [goalMalformed] at hg
    | invalid s => simp [goalMalformed] at hg
    | numeric c =>
      cases gt with
      | missing => simp [goalMalformed] at hg
      | invalid s => simp [goalMalformed] at hg
      | numeric t =>
        simp only [multiGoalsAux]
        rw [if_neg (by simp)]
        simp only [to_float]
        rw [ih (idx + 1) (fun g2 hg2 => hall g2 (List.mem_cons_of_mem _ hg2))]
        rfl

theorem multiGoalsAux_err :
    ∀ (goals : List Goal) (idx : Nat),
      (∃ (i : Nat) (g : Goal), goals[i]? = some g ∧ goalMalformed g = true) →
      ∃ (j : Nat) (h : Goal) (suffix : String), goals[j]? = some h ∧ goalMalformed h = true ∧
        multiGoalsAux idx goals =
          Except.error ("Goal at index " ++ toString (idx + j) ++ suffix) := by
  intro goals
  induction goals with
  | nil =>
    rintro idx ⟨i, g, hig, _⟩
    simp at hig
  | cons g rest ih =>
    rintro idx ⟨i, g0, hig, hmal⟩
    by_cases hgm : goalMalformed g = true
    · obtain ⟨gc, gt, gid, glabel⟩ := g
      by_cases hmiss : gc = RawVal.missing ∨ gt = RawVal.missing
      · refine ⟨0, ⟨gc, gt, gid, glabel⟩,
          " is missing \x27current\x27 or \x27target\x27.", by simp, hgm, ?_⟩
        rw [Nat.add_zero]
        simp only [multiGoalsAux]
        rw [if_pos hmiss]
      · push_neg at hmiss
        obtain ⟨hm1, hm2⟩ := hmiss
        cases gc with
        | missing => exact absurd rfl hm1
        | invalid s =>
          refine ⟨0, ⟨RawVal.invalid s, gt, gid, glabel⟩,
            " has invalid \x27current\x27: " ++
              ("Value \x27" ++ s ++ "\x27 is not a valid number."),
            by simp, hgm, ?_⟩
          rw [Nat.add_zero]
          simp only [multiGoalsAux]
          rw [if_neg (by simp [hm2])]
          simp only [to_float]
          exact congrArg Except.error (String.append_assoc _ _ _)
        | numeric c =>
          cases gt with
          | missing => exact absurd rfl hm2
          | invalid s =>
            refine ⟨0, ⟨RawVal.numeric c, RawVal.invalid s, gid, glabel⟩,
              " has invalid \x27target\x27: " ++
                ("Value \x27" ++ s ++ "\x27 is not a valid number."),
              by simp, hgm, ?_⟩
            rw [Nat.add_zero]
            simp only [multiGoalsAux]
            rw [if_neg (by simp)]
            simp only [to_float]
            exact congrArg Except.error (String.append_assoc _ _ _)
          | numeric t => simp [goalMalformed] at hgm
    · have hrest : ∃ (i2 : Nat) (g2 : Goal), rest[i2]? = some g2 ∧ goalMalformed g2 = true := by
        match i with
        | 0 =>
          exfalso
          simp only [List.getElem?_cons_zero, Option.some.injEq] at hig
          apply hgm
          rw [hig]
          exact hmal
        | i2 + 1 =>
          refine ⟨i2, g0, ?_, hmal⟩
          simpa using hig
      obtain ⟨j, h, suffix, hj, hm, heq⟩ := ih (idx + 1) hrest
      have hidx : (idx + 1) + j = idx + (j + 1) := by omega
      rw [hidx] at heq
      refine ⟨j + 1, h, suffix, by simpa using hj, hm, ?_⟩
      obtain ⟨gc, gt, gid, glabel⟩ := g
      cases gc with
      | missing => simp [goalMalformed] at hgm
      | invalid s => simp [goalMalformed] at hgm
      | numeric c =>
        cases gt with
        | missing => simp [goalMalformed] at hgm
        | invalid s => simp [goalMalformed] at hgm
        | numeric t =>
          simp only [multiGoalsAux]
          rw [if_neg (by simp)]
          simp only [to_float]
          rw [heq]

/-- C9: `compute_multi_goals` fails the entire batch — with an error
message reporting the index of an offending goal — whenever some goal
is missing `current`/`target` or has a non-numeric value; with no
malformed goal it returns one `compute_progress` summary per goal, in
order, with `id`/`label` echoed. -/
theorem C9_theorem (goals : List Goal) :
    ((∀ g ∈ goals, goalMalformed g = false) →
      compute_multi_goals goals = Except.ok (goals.map summarize)) ∧
    ((∃ (i : Nat) (g : Goal), goals[i]? = some g ∧ goalMalformed g = true) →
      ∃ (j : Nat) (h : Goal) (suffix : String),
        goals[j]? = some h ∧ goalMalformed h = true ∧
        compute_multi_goals goals =
          Except.error ("Goal at index " ++ toString j ++ suffix)) := by
  constructor
  · intro h
    exact multiGoalsAux_ok goals 0 h
  · intro h
    obtain ⟨j, g, suffix, hj, hm, heq⟩ := multiGoalsAux_err goals 0 h
    rw [Nat.zero_add] at heq
    exact ⟨j, g, suffix, hj, hm, heq⟩

/-- C9 witness: a well-formed singleton batch succeeds; a batch whose
first goal misses `current` fails with an index-bearing message. -/
theorem C9_witness :
    compute_multi_goals [⟨RawVal.numeric 1, RawVal.numeric 2, some "a", none⟩] =
      Except.ok ([⟨RawVal.numeric 1, RawVal.numeric 2, some "a", none⟩].map summarize) ∧
    (∃ (j : Nat) (h : Goal) (suffix : String),
      ([(⟨RawVal.missing, RawVal.numeric 2, none, none⟩ : Goal)])[j]? = some h ∧
      goalMalformed h = true ∧
      compute_multi_goals [⟨RawVal.missing, RawVal.numeric 2, none, none⟩] =
        Except.error ("Goal at index " ++ toString j ++ suffix)) :=
  ⟨(C9_theorem [⟨RawVal.numeric 1, RawVal.numeric 2, some "a", none⟩]).1 (by decide),
   (C9_theorem [⟨RawVal.missing, RawVal.numeric 2, none, none⟩]).2
     ⟨0, ⟨RawVal.missing, RawVal.numeric 2, none, none⟩, rfl, rfl⟩⟩
